import Mathlib

set_option maxRecDepth 16384

/-!
Verification development for the Rails migration assistant's tiered
code-issue detection engine.  The Python sources
`src/analyzer/code_parser.py`, `src/analyzer/hybrid_analyzer.py` and
`src/retriever/retriever.py` are shallowly embedded below: pure functions
become Lean functions over `String`/`List Char`, Python `re` patterns are
transcribed into a small regular-expression datatype evaluated by a
fuel-bounded backtracking matcher, Python `float` confidence constants are
represented as exact rationals (they are only ever compared literally,
never computed with), and the external services (the sentence-transformer
embedder, the faiss index, the local LLM generator) appear as opaque
function parameters, mirroring the contract the source assumes of them.
-/

/-! ## Python string primitives (over `List Char`)

Python's default whitespace set for `str.strip`, `str.lstrip` and the
regex class `\s` is (for the ASCII inputs handled here)
space, tab, newline, carriage return, form feed and vertical tab. -/

def pySpace (c : Char) : Bool :=
  c = ' ' || c = '\t' || c = '\n' || c = '\r' || c = Char.ofNat 11 || c = Char.ofNat 12

/-- Python `str.strip()` on a character list. -/
def chStrip (s : List Char) : List Char :=
  ((s.dropWhile pySpace).reverse.dropWhile pySpace).reverse

/-- Python `str.lstrip()` on a character list. -/
def chLStrip (s : List Char) : List Char := s.dropWhile pySpace

/-- Python `str.split(sep)` for a one-character separator. -/
def chSplit (sep : Char) : List Char → List (List Char)
  | [] => [[]]
  | c :: rest =>
    let r := chSplit sep rest
    if c = sep then [] :: r
    else
      match r with
      | h :: t => (c :: h) :: t
      | [] => [[c]]

/-- Python `sep.join(...)` / the inverse of `chSplit`. -/
def chJoin (sep : Char) : List (List Char) → List Char
  | [] => []
  | [l] => l
  | l :: (h :: t) => l ++ sep :: chJoin sep (h :: t)

/-- Python substring containment `sub in s`. -/
def chContains (s sub : List Char) : Bool :=
  sub.isPrefixOf s ||
    match s with
    | [] => false
    | _ :: t => chContains t sub

/-- Python `str.count(sub)` (number of non-overlapping occurrences,
scanning left to right), for a non-empty `sub`.  The extra `Nat` is
structural-recursion fuel; one unit per scanned position suffices. -/
def chCountF (sub : List Char) : Nat → List Char → Nat
  | 0, _ => 0
  | _ + 1, [] => 0
  | f + 1, c :: t =>
    if sub.isPrefixOf (c :: t) ∧ sub ≠ [] then
      1 + chCountF sub f (t.drop (sub.length - 1))
    else
      chCountF sub f t

def chCount (sub s : List Char) : Nat := chCountF sub (s.length + 1) s

/-- Python `str.lower()` (ASCII inputs). -/
def chLower (s : List Char) : List Char := s.map Char.toLower

/-- String wrappers. -/
def pyStrip (s : String) : String := ⟨chStrip s.data⟩

def pyLStrip (s : String) : String := ⟨chLStrip s.data⟩

def pyLower (s : String) : String := ⟨chLower s.data⟩

/-- Python `content.split('\n')`. -/
def pyLines (s : String) : List String := (chSplit '\n' s.data).map String.mk

/-- Python `'\n'.join(lines)`. -/
def pyJoin (lines : List String) : String := ⟨chJoin '\n' (lines.map String.data)⟩

/-- Python `sub in s`. -/
def strContains (s sub : String) : Bool := chContains s.data sub.data

/-- Python `s.startswith(p)`. -/
def strStarts (s p : String) : Bool := p.data.isPrefixOf s.data

/-- Python `s.endswith(p)`. -/
def strEnds (s p : String) : Bool := p.data.isSuffixOf s.data

/-- Python `str.count(sub)`. -/
def strCount (s sub : String) : Nat := chCount sub.data s.data

/-- Python `enumerate(lines, start)`. -/
def pyEnum (start : Nat) : List α → List (Nat × α)
  | [] => []
  | x :: t => (start, x) :: pyEnum (start + 1) t

/-- Python `range(a, b, -1)`, i.e. `a, a-1, ..., b+1` (empty when `a ≤ b`). -/
def rangeDown (a b : Nat) : List Nat := (List.range' (b + 1) (a - b)).reverse

/-! ## A small regular-expression engine

Python `re` patterns used by the analyzer are transcribed into this
datatype; each transcription carries the original pattern in a comment.
The matcher is a fuel-bounded backtracking CPS matcher; alternatives are
tried left to right and repetition is greedy (consume first), matching
the first-match semantics of CPython's `re`. The word-boundary assertion
needs the previous character, which is threaded through the match. -/

inductive RE : Type
  | eps : RE
  | cls : (Char → Bool) → RE
  | cat : RE → RE → RE
  | alt : RE → RE → RE
  | star : RE → RE
  | wb : RE
  | nla : RE → RE

/-- Single literal character. -/
def RE.chr (c : Char) : RE := RE.cls (fun x => x = c)

/-- Literal string. -/
def RE.str (s : String) : RE := s.data.foldr (fun c r => RE.cat (RE.chr c) r) RE.eps

/-- Regex `\s`. -/
def RE.ws : RE := RE.cls pySpace

/-- Regex `\w` (ASCII word characters; the analyzed sources are ASCII). -/
def isWordChar (c : Char) : Bool :=
  ('a' ≤ c && c ≤ 'z') || ('A' ≤ c && c ≤ 'Z') || ('0' ≤ c && c ≤ '9') || c = '_'

def RE.wd : RE := RE.cls isWordChar

/-- Regex `\d`. -/
def RE.dig : RE := RE.cls (fun c => '0' ≤ c && c ≤ '9')

/-- Regex `.` (any character except newline). -/
def RE.anyc : RE := RE.cls (fun c => c ≠ '\n')

/-- Regex `r+`. -/
def RE.pl (r : RE) : RE := RE.cat r (RE.star r)

/-- Regex `r?`. -/
def RE.opt (r : RE) : RE := RE.alt r RE.eps

/-- Concatenation of a list of regexes. -/
def RE.seq (l : List RE) : RE := l.foldr RE.cat RE.eps

/-- Word-boundary test between the previous character and the rest. -/
def isBoundary (prev : Option Char) (s : List Char) : Bool :=
  let pw := match prev with | none => false | some c => isWordChar c
  let nw := match s with | [] => false | c :: _ => isWordChar c
  pw ≠ nw

/-- Backtracking matcher: does `r` match a prefix of `s` such that the
continuation `k` accepts the rest?  `prev` is the character just before
`s` (for `\b`). -/
def reM (fuel : Nat) (r : RE) (prev : Option Char) (s : List Char)
    (k : Option Char → List Char → Bool) : Bool :=
  match fuel with
  | 0 => false
  | fuel + 1 =>
    match r with
    | .eps => k prev s
    | .cls p =>
      match s with
      | [] => false
      | c :: rest => p c && k (some c) rest
    | .cat a b => reM fuel a prev s (fun p2 s2 => reM fuel b p2 s2 k)
    | .alt a b => reM fuel a prev s k || reM fuel b prev s k
    | .star a =>
      reM fuel a prev s
          (fun p2 s2 => if s2.length < s.length then reM fuel (RE.star a) p2 s2 k else false)
        || k prev s
    | .wb => isBoundary prev s && k prev s
    | .nla a => (!reM fuel a prev s (fun _ _ => true)) && k prev s

/-- Matcher returning the state after the first (backtracking-order)
successful match: the last consumed character and the remaining input. -/
def reME (fuel : Nat) (r : RE) (prev : Option Char) (s : List Char)
    (k : Option Char → List Char → Option (Option Char × List Char)) :
    Option (Option Char × List Char) :=
  match fuel with
  | 0 => none
  | fuel + 1 =>
    match r with
    | .eps => k prev s
    | .cls p =>
      match s with
      | [] => none
      | c :: rest => if p c then k (some c) rest else none
    | .cat a b => reME fuel a prev s (fun p2 s2 => reME fuel b p2 s2 k)
    | .alt a b =>
      match reME fuel a prev s k with
      | some res => some res
      | none => reME fuel b prev s k
    | .star a =>
      match reME fuel a prev s
          (fun p2 s2 =>
            if s2.length < s.length then reME fuel (RE.star a) p2 s2 k else none) with
      | some res => some res
      | none => k prev s
    | .wb => if isBoundary prev s then k prev s else none
    | .nla a => if reM fuel a prev s (fun _ _ => true) then none else k prev s

/-- Fuel that is ample for every pattern in this development. -/
def reFuel (s : List Char) : Nat := 200 + 40 * s.length

/-- Python `re.search(r, s) is not None`: try to match at every start
position, left to right. -/
def reSearchAux (fuel : Nat) (r : RE) (prev : Option Char) (s : List Char) : Bool :=
  reM fuel r prev s (fun _ _ => true) ||
    match s with
    | [] => false
    | c :: rest => reSearchAux fuel r (some c) rest

def reSearch (r : RE) (s : String) : Bool := reSearchAux (reFuel s.data) r none s.data

/-- Python `re.sub(r, repl, s)` for a literal replacement: replace every
(leftmost, non-overlapping) match; on an empty match the scan advances by
one character (none of the transcribed patterns matches empty).  The
first `Nat` is structural-recursion fuel for the scan; one unit per
position suffices. -/
def reSubAux (fuel : Nat) (r : RE) (repl : List Char) :
    Nat → Option Char → List Char → List Char
  | 0, _, s => s
  | sf + 1, prev, s =>
    match reME fuel r prev s (fun p2 s2 => some (p2, s2)) with
    | some (p2, s2) =>
      if s2.length < s.length then
        repl ++ reSubAux fuel r repl sf p2 s2
      else
        match s with
        | [] => repl
        | c :: rest => repl ++ c :: reSubAux fuel r repl sf (some c) rest
    | none =>
      match s with
      | [] => []
      | c :: rest => c :: reSubAux fuel r repl sf (some c) rest

def reSub (r : RE) (repl : String) (s : String) : String :=
  ⟨reSubAux (reFuel s.data) r repl.data (s.data.length + 1) none s.data⟩

/-- Python `len(re.findall(r, s))`: count of non-overlapping matches. -/
def reCountAux (fuel : Nat) (r : RE) : Nat → Option Char → List Char → Nat
  | 0, _, _ => 0
  | sf + 1, prev, s =>
    match reME fuel r prev s (fun p2 s2 => some (p2, s2)) with
    | some (p2, s2) =>
      if s2.length < s.length then
        1 + reCountAux fuel r sf p2 s2
      else
        match s with
        | [] => 1
        | c :: rest => 1 + reCountAux fuel r sf (some c) rest
    | none =>
      match s with
      | [] => 0
      | c :: rest => reCountAux fuel r sf (some c) rest

def reCount (r : RE) (s : String) : Nat :=
  reCountAux (reFuel s.data) r (s.data.length + 1) none s.data

/-! ## Embedding of `src/analyzer/code_parser.py` -/

/-- Character class `['\"]` (a single or double quote). -/
def isQuoteChar (c : Char) : Bool := c = '"' || c = Char.ofNat 39

def RE.qt : RE := RE.cls isQuoteChar

/-- `find_mass_assignment_risks`: the four risk patterns, in source order
(matched with `re.IGNORECASE`, modelled by lowering the line first):
`\.new\s*\(\s*params(?:\[[^\]]+\])?\s*\)`, and the same shape for
`create`, `update` and `update_attributes`. -/
def massRiskShape (callee : String) : RE :=
  RE.seq [RE.chr '.', RE.str callee, RE.star RE.ws, RE.chr '(', RE.star RE.ws,
    RE.str "params",
    RE.opt (RE.seq [RE.chr '[', RE.pl (RE.cls (fun c => c ≠ ']')), RE.chr ']']),
    RE.star RE.ws, RE.chr ')']

def risk_patterns : List RE :=
  [massRiskShape "new", massRiskShape "create", massRiskShape "update",
   massRiskShape "update_attributes"]

/-- `find_mass_assignment_risks`: the five safe (exclusion) patterns, in
source order: `params\[.*\]\.permit\(`, `params\.require\(`,
`params\.permit\(`, `def\s+\w+_params`, `#.*`. -/
def safe_patterns : List RE :=
  [RE.seq [RE.str "params[", RE.star RE.anyc, RE.str "].permit("],
   RE.str "params.require(",
   RE.str "params.permit(",
   RE.seq [RE.str "def", RE.pl RE.ws, RE.pl RE.wd, RE.str "_params"],
   RE.seq [RE.chr '#', RE.star RE.anyc]]

/-- `any(re.search(p, line, re.IGNORECASE) for p in safe_patterns)`. -/
def isSafeLine (line : String) : Bool :=
  safe_patterns.any (fun r => reSearch r (pyLower line))

/-- `any(re.search(p, line, re.IGNORECASE) for p in risk_patterns)`
(with the per-line `break`, only reaching the first matching pattern). -/
def isRiskLine (line : String) : Bool :=
  risk_patterns.any (fun r => reSearch r (pyLower line))

/-- `find_mass_assignment_risks(controller_content)`: per (1-based) line,
skip blank lines, skip lines matching a safe pattern, and report
`(line_num, line.strip())` when a risk pattern matches. -/
def find_mass_assignment_risks (controller_content : String) : List (Nat × String) :=
  (pyEnum 1 (pyLines controller_content)).flatMap (fun p =>
    if pyStrip p.2 = "" then []
    else if isSafeLine p.2 then []
    else if isRiskLine p.2 then [(p.1, pyStrip p.2)]
    else [])

/-- `re.match(r'^(\s*)def\s+([a-zA-Z_][a-zA-Z0-9_]*[!?]?)', line)` as a
direct parser, returning `(len(group(1)), group(2))`: leading whitespace,
then `def`, then at least one whitespace, then an identifier with an
optional trailing `!` or `?`. -/
def parseDefHeader (line : String) : Option (Nat × String) :=
  let cs := line.data
  let ws := cs.takeWhile pySpace
  let rest := cs.dropWhile pySpace
  match rest with
  | 'd' :: 'e' :: 'f' :: r2 =>
    match r2 with
    | c1 :: _ =>
      if pySpace c1 then
        match r2.dropWhile pySpace with
        | c :: r4 =>
          if ('a' ≤ c && c ≤ 'z') || ('A' ≤ c && c ≤ 'Z') || c = '_' then
            let body := r4.takeWhile isWordChar
            let after := r4.dropWhile isWordChar
            let bang : List Char :=
              match after with
              | b :: _ => if b = '!' ∨ b = '?' then [b] else []
              | [] => []
            some (ws.length, ⟨c :: (body ++ bang)⟩)
          else none
        | [] => none
      else none
    | [] => none
  | _ => none

/-- `re.findall(r'\b(do|if|unless|case|while|until|begin|class|module|def)\b', s)`
(count of matches). -/
def blockOpenersRE : RE :=
  RE.seq [RE.wb,
    [ "do", "if", "unless", "case", "while", "until", "begin", "class", "module",
      "def" ].foldr (fun w r => RE.alt (RE.str w) r) (RE.cls (fun _ => false)),
    RE.wb]

def openersCount (s : String) : Nat := reCount blockOpenersRE s

/-- `re.findall(r'\bend\b', s)` (count of matches). -/
def blockClosersRE : RE := RE.seq [RE.wb, RE.str "end", RE.wb]

def closersCount (s : String) : Nat := reCount blockClosersRE s

/-- The backward scan of `extract_method_context`: the first index `i` in
`range(line_number-1, max(0, line_number-100), -1)` whose line matches the
method-definition header regex, with the captured indentation and name. -/
def findHeaderBack (lines : List String) : List Nat → Option (Nat × Nat × String)
  | [] => none
  | i :: rest =>
    match parseDefHeader (lines.getD i "") with
    | some (indent, name) => some (i, indent, name)
    | none => findHeaderBack lines rest

/-- The forward scan of `extract_method_context`, from the header line:
skip blank/comment lines; update the block-nesting counter with the
opener/closer keyword counts of the stripped line; stop at the first line
that is exactly `end`, at indentation `≤ base_indent`, once the counter is
`≤ 0`, returning its 1-based number. -/
def findMethodEnd (base_indent : Nat) : List String → Nat → Int → Option Nat
  | [], _, _ => none
  | line :: rest, idx, depth =>
    if pyStrip line = "" ∨ strStarts (pyStrip line) "#" then
      findMethodEnd base_indent rest (idx + 1) depth
    else
      let current_indent := line.data.length - (chLStrip line.data).length
      let line_content := pyStrip line
      let depth := depth + (openersCount line_content : Int) - (closersCount line_content : Int)
      if current_indent ≤ base_indent ∧ line_content = "end" ∧ depth ≤ 0 then
        some (idx + 1)
      else
        findMethodEnd base_indent rest (idx + 1) depth

structure MethodContext where
  method_name : String
  start_line : Nat
  end_line : Nat
  content : String
  line_count : Nat
deriving DecidableEq, Repr

/-- `extract_method_context(file_content, line_number)`.  Scans backward
from the (1-based) query line, within the fixed 100-line look-back
window, for the nearest method-definition header, then scans forward for
the terminating `end`; if none is found the method is assumed to extend
to the end of the file. -/
def extract_method_context (file_content : String) (line_number : Nat) :
    Option MethodContext :=
  let lines := pyLines file_content
  if line_number < 1 ∨ lines.length < line_number then none
  else
    match findHeaderBack lines (rangeDown (line_number - 1) (line_number - 100)) with
    | none => none
    | some (i, method_indent, method_name) =>
      let method_start_line := i + 1
      let method_end_line :=
        match findMethodEnd method_indent (lines.drop i) i 0 with
        | some e => e
        | none => lines.length
      let method_lines :=
        (lines.drop (method_start_line - 1)).take (method_end_line - (method_start_line - 1))
      some
        { method_name := method_name
          start_line := method_start_line
          end_line := method_end_line
          content := pyJoin method_lines
          line_count := method_end_line - method_start_line + 1 }

/-! ## Embedding of `src/analyzer/hybrid_analyzer.py` -/

/-- Configuration constants (floats as exact rationals). -/
def RAG_SEARCH_LIMIT : Nat := 3

def FILE_CONTEXT_CACHE_SIZE : Nat := 100

def TIER_1_CONFIDENCE : ℚ := 0.9

def TIER_2_CONFIDENCE : ℚ := 0.8

/-- `@dataclass DetectionResult`. -/
structure DetectionResult where
  file_path : String
  pattern_type : String
  line_number : Nat
  line_content : String
  method_context : Option MethodContext := none
  confidence : ℚ := 1
deriving DecidableEq, Repr

/-- One entry of `Tier1PatternDetector.simple_patterns`. -/
structure SimpleRule where
  pattern : RE
  replacement : String
  explanation : String
  confidence : ℚ

/-- `Tier1PatternDetector.simple_patterns`, in source (insertion) order.
The original regex string appears in a comment before each entry; these
are matched with `re.search` and no flags (case-sensitive). -/
def simple_patterns : List (String × SimpleRule) :=
  [ -- r'\bbefore_filter\s+'
    ("before_filter_deprecation",
     { pattern := RE.seq [RE.wb, RE.str "before_filter", RE.pl RE.ws]
       replacement := "before_action "
       explanation := "before_filter is deprecated in Rails 5+, use before_action instead"
       confidence := 0.95 }),
    -- r'\bafter_filter\s+'
    ("after_filter_deprecation",
     { pattern := RE.seq [RE.wb, RE.str "after_filter", RE.pl RE.ws]
       replacement := "after_action "
       explanation := "after_filter is deprecated in Rails 5+, use after_action instead"
       confidence := 0.95 }),
    -- r'\bskip_before_filter\s+'
    ("skip_before_filter_deprecation",
     { pattern := RE.seq [RE.wb, RE.str "skip_before_filter", RE.pl RE.ws]
       replacement := "skip_before_action "
       explanation := "skip_before_filter is deprecated in Rails 5+, use skip_before_action instead"
       confidence := 0.95 }),
    -- r'\.update_attributes\s*\('
    ("update_attributes_deprecation",
     { pattern := RE.seq [RE.chr '.', RE.str "update_attributes", RE.star RE.ws, RE.chr '(']
       replacement := ".update("
       explanation := "update_attributes is deprecated in Rails 6+, use update instead"
       confidence := 0.9 }),
    -- r'\battr_accessible\s+'
    ("attr_accessible_deprecation",
     { pattern := RE.seq [RE.wb, RE.str "attr_accessible", RE.pl RE.ws]
       replacement := "# Use strong parameters in controller instead"
       explanation := "attr_accessible is deprecated in Rails 4+, use strong parameters in controllers"
       confidence := 0.95 }),
    -- r"gem\s+['\"]protected_attributes['\"]"
    ("protected_attributes_gem",
     { pattern := RE.seq [RE.str "gem", RE.pl RE.ws, RE.qt, RE.str "protected_attributes", RE.qt]
       replacement := "# Remove and use strong parameters"
       explanation := "protected_attributes gem is deprecated, migrate to strong parameters"
       confidence := 0.9 }),
    -- r"gem\s+['\"]rails-observers['\"]"
    ("rails_observers_gem",
     { pattern := RE.seq [RE.str "gem", RE.pl RE.ws, RE.qt, RE.str "rails-observers", RE.qt]
       replacement := "# Use ActiveJob or callbacks instead"
       explanation := "rails-observers gem was extracted from Rails core, consider alternatives"
       confidence := 0.85 }),
    -- r"gem\s+['\"]paperclip['\"]"
    ("paperclip_deprecation",
     { pattern := RE.seq [RE.str "gem", RE.pl RE.ws, RE.qt, RE.str "paperclip", RE.qt]
       replacement := "gem \x27image_processing\x27  # Use Active Storage"
       explanation := "Paperclip is deprecated, migrate to Active Storage (Rails 5.2+)"
       confidence := 0.8 }),
    -- r"gem\s+['\"]factory_girl"
    ("factory_girl_rename",
     { pattern := RE.seq [RE.str "gem", RE.pl RE.ws, RE.qt, RE.str "factory_girl"]
       replacement := "gem \x27factory_bot"
       explanation := "factory_girl was renamed to factory_bot"
       confidence := 0.95 }),
    -- r"gem\s+['\"]quiet_assets['\"]"
    ("quiet_assets_deprecation",
     { pattern := RE.seq [RE.str "gem", RE.pl RE.ws, RE.qt, RE.str "quiet_assets", RE.qt]
       replacement := "# Not needed in Rails 5+"
       explanation := "quiet_assets gem is not needed in Rails 5+, asset quieting is built-in"
       confidence := 0.9 }),
    -- r'config\.serve_static_assets\s*='
    ("serve_static_assets_config",
     { pattern := RE.seq [RE.str "config.serve_static_assets", RE.star RE.ws, RE.chr '=']
       replacement := "config.public_file_server.enabled ="
       explanation := "serve_static_assets is deprecated in Rails 5+, use public_file_server.enabled"
       confidence := 0.95 }),
    -- r'config\.static_cache_control\s*='
    ("static_cache_control_config",
     { pattern := RE.seq [RE.str "config.static_cache_control", RE.star RE.ws, RE.chr '=']
       replacement := "config.public_file_server.headers ="
       explanation := "static_cache_control is deprecated in Rails 5+, use public_file_server.headers"
       confidence := 0.9 }),
    -- r'config\.active_record\.raise_in_transactional_callbacks\s*='
    ("raise_in_transactional_callbacks",
     { pattern := RE.seq [RE.str "config.active_record.raise_in_transactional_callbacks",
         RE.star RE.ws, RE.chr '=']
       replacement := "# Remove this line"
       explanation := "raise_in_transactional_callbacks is deprecated in Rails 5+, this is now the default behavior"
       confidence := 0.95 }),
    -- r'config\.eager_load_paths\s*\+='
    ("eager_load_paths_deprecation",
     { pattern := RE.seq [RE.str "config.eager_load_paths", RE.star RE.ws, RE.str "+="]
       replacement := "config.autoload_paths +="
       explanation := "Consider using autoload_paths or autoload_lib_dirs instead"
       confidence := 0.8 }),
    -- r'devise_parameter_sanitizer\.for\('
    ("devise_parameter_sanitizer_old",
     { pattern := RE.str "devise_parameter_sanitizer.for("
       replacement := "devise_parameter_sanitizer.permit("
       explanation := "devise_parameter_sanitizer.for is deprecated, use permit instead"
       confidence := 0.9 }),
    -- r"gem\s+['\"]mysql2['\"],\s*['\"]~>\s*0\.[34]"
    ("mysql2_version_constraint",
     { pattern := RE.seq [RE.str "gem", RE.pl RE.ws, RE.qt, RE.str "mysql2", RE.qt, RE.chr ',',
         RE.star RE.ws, RE.qt, RE.str "~>", RE.star RE.ws, RE.str "0.",
         RE.cls (fun c => c = '3' || c = '4')]
       replacement := "gem \x27mysql2\x27, \x27~> 0.5\x27"
       explanation := "Update mysql2 gem version for Rails 5+ compatibility"
       confidence := 0.85 }),
    -- r'ActionDispatch::ParamsParser'
    ("actiondispatch_parsers",
     { pattern := RE.str "ActionDispatch::ParamsParser"
       replacement := "# Remove - parsing is built-in"
       explanation := "ActionDispatch::ParamsParser middleware was removed in Rails 5+"
       confidence := 0.9 }),
    -- r'ActionDispatch::XmlParamsParser'
    ("actiondispatch_xml_parser",
     { pattern := RE.str "ActionDispatch::XmlParamsParser"
       replacement := "# Remove or use actionpack-xml_parser gem"
       explanation := "XML parameter parsing was extracted to actionpack-xml_parser gem"
       confidence := 0.85 }),
    -- r'Rails\.application\.config\.session_store\s+:cookie_store'
    ("session_store_config",
     { pattern := RE.seq [RE.str "Rails.application.config.session_store", RE.pl RE.ws,
         RE.str ":cookie_store"]
       replacement := "Rails.application.config.session_store :cookie_store"
       explanation := "Session store configuration may need updates for Rails 6+ security requirements"
       confidence := 0.7 }),
    -- r'session_store\s+:cookie_store,\s*key:\s*[\'"][^\'\"]*[\'"]'
    ("cookie_store_key_config",
     { pattern := RE.seq [RE.str "session_store", RE.pl RE.ws, RE.str ":cookie_store,",
         RE.star RE.ws, RE.str "key:", RE.star RE.ws, RE.qt,
         RE.star (RE.cls (fun c => !isQuoteChar c)), RE.qt]
       replacement := "# Update with secure configurations"
       explanation := "Cookie store key configuration should include secure options for Rails 6+"
       confidence := 0.8 }),
    -- r'class\s+\w+\s*<\s*ActionController::TestCase'
    ("test_case_inheritance",
     { pattern := RE.seq [RE.str "class", RE.pl RE.ws, RE.pl RE.wd, RE.star RE.ws, RE.chr '<',
         RE.star RE.ws, RE.str "ActionController::TestCase"]
       replacement := "class TestName < ActionDispatch::IntegrationTest"
       explanation := "ActionController::TestCase is deprecated, use ActionDispatch::IntegrationTest"
       confidence := 0.9 }),
    -- r'class\s+\w+\s*<\s*ActionView::TestCase'
    ("action_view_test_case",
     { pattern := RE.seq [RE.str "class", RE.pl RE.ws, RE.pl RE.wd, RE.star RE.ws, RE.chr '<',
         RE.star RE.ws, RE.str "ActionView::TestCase"]
       replacement := "class TestName < ActionView::TestCase"
       explanation := "ActionView::TestCase usage should be reviewed for Rails 6+ compatibility"
       confidence := 0.6 }),
    -- r'belongs_to\s+:\w+(?!.*required:\s*false)'
    ("belongs_to_required",
     { pattern := RE.seq [RE.str "belongs_to", RE.pl RE.ws, RE.chr ':', RE.pl RE.wd,
         RE.nla (RE.seq [RE.star RE.anyc, RE.str "required:", RE.star RE.ws, RE.str "false"])]
       replacement := "belongs_to :association, optional: true"
       explanation := "belongs_to associations are required by default in Rails 5+, add optional: true if needed"
       confidence := 0.7 }),
    -- r'\.find_by_\w+\('
    ("find_by_dynamic_methods",
     { pattern := RE.seq [RE.chr '.', RE.str "find_by_", RE.pl RE.wd, RE.chr '(']
       replacement := ".find_by(attribute: value)"
       explanation := "Dynamic find_by_* methods are deprecated, use find_by with hash syntax"
       confidence := 0.85 }),
    -- r'\.find_all_by_\w+\('
    ("find_all_by_dynamic_methods",
     { pattern := RE.seq [RE.chr '.', RE.str "find_all_by_", RE.pl RE.wd, RE.chr '(']
       replacement := ".where(attribute: value)"
       explanation := "Dynamic find_all_by_* methods are deprecated, use where instead"
       confidence := 0.85 }),
    -- r'\bRAILS_ENV\b'
    ("rails_env_constant",
     { pattern := RE.seq [RE.wb, RE.str "RAILS_ENV", RE.wb]
       replacement := "Rails.env"
       explanation := "RAILS_ENV constant is deprecated, use Rails.env instead"
       confidence := 0.9 }),
    -- r'\bRAILS_ROOT\b'
    ("rails_root_constant",
     { pattern := RE.seq [RE.wb, RE.str "RAILS_ROOT", RE.wb]
       replacement := "Rails.root"
       explanation := "RAILS_ROOT constant is deprecated, use Rails.root instead"
       confidence := 0.9 }),
    -- r'scope\s+:\w+,\s*lambda\s*\{'
    ("scope_lambda_syntax",
     { pattern := RE.seq [RE.str "scope", RE.pl RE.ws, RE.chr ':', RE.pl RE.wd, RE.chr ',',
         RE.star RE.ws, RE.str "lambda", RE.star RE.ws, RE.chr (Char.ofNat 123)]
       replacement := "scope :name, -> \x7b"
       explanation := "Lambda syntax in scopes should use stabby lambda (->) for better performance"
       confidence := 0.8 }) ]

/-- `Tier1PatternDetector._is_controller_file`. -/
def is_controller_file (file_path : String) : Bool :=
  strContains (pyLower file_path) "controller" ||
    strContains file_path "/app/controllers/" ||
    strContains file_path "\\app\\controllers\\"

/-- `Tier1PatternDetector.detect_mass_assignment`. -/
def detect_mass_assignment (file_path content : String) : List DetectionResult :=
  if !is_controller_file file_path then []
  else
    (find_mass_assignment_risks content).map (fun p =>
      { file_path := file_path
        pattern_type :=
          if strContains p.2 "update_attributes" then "mass_assignment_with_deprecation"
          else "mass_assignment"
        line_number := p.1
        line_content := p.2
        method_context := extract_method_context content p.1
        confidence := TIER_1_CONFIDENCE })

/-- The inner pattern loop of `detect_simple_deprecations` (with its
`break`: only the first matching table entry applies per line). -/
def firstSimpleMatch (line : String) : Option (String × SimpleRule) :=
  simple_patterns.find? (fun pr => reSearch pr.2.pattern line)

/-- The loop body of `detect_simple_deprecations` for one enumerated
line `(line_num, line)`: skip lines already processed by mass-assignment
detection, skip lines with mass-assignment patterns (handled
separately), otherwise report the first matching table rule. -/
def simpleScanLine (file_path : String) (processed_lines : List Nat)
    (p : Nat × String) : List DetectionResult :=
  if processed_lines.contains p.1 then []
  else if strContains p.2 "params[" ∧
      (strContains p.2 "update_attributes" ∨ strContains p.2 "attributes=") then []
  else
    match firstSimpleMatch p.2 with
    | some pr =>
      [{ file_path := file_path
         pattern_type := pr.1
         line_number := p.1
         line_content := pyStrip p.2
         method_context := none
         confidence := pr.2.confidence }]
    | none => []

/-- `Tier1PatternDetector.detect_simple_deprecations`. -/
def detect_simple_deprecations (file_path content : String)
    (processed_lines : List Nat) : List DetectionResult :=
  (pyEnum 1 (pyLines content)).flatMap (simpleScanLine file_path processed_lines)

/-- `Tier1PatternDetector.detect_all_tier1_issues`. -/
def detect_all_tier1_issues (file_path content : String) : List DetectionResult :=
  let mass_assignment_results := detect_mass_assignment file_path content
  let processed_lines := mass_assignment_results.map (·.line_number)
  mass_assignment_results ++ detect_simple_deprecations file_path content processed_lines

/-- `Tier2RAGAnalyzer.needs_tier2_analysis`: the "important file" name
heuristics. -/
def important_files : List String :=
  ["gemfile", "gemspec", "rakefile", "routes.rb", "application.rb",
   "environment.rb", "boot.rb", "schema.rb", "seeds.rb"]

/-- `Tier2RAGAnalyzer.config_patterns` (values, in source order), matched
with `re.search` against the file path: `config/application\.rb`,
`config/environments/.*\.rb`, `config/initializers/.*\.rb`,
`config/routes\.rb`, `config/database\.yml`, `Gemfile`. -/
def config_patterns_t2 : List RE :=
  [RE.str "config/application.rb",
   RE.seq [RE.str "config/environments/", RE.star RE.anyc, RE.str ".rb"],
   RE.seq [RE.str "config/initializers/", RE.star RE.anyc, RE.str ".rb"],
   RE.str "config/routes.rb",
   RE.str "config/database.yml",
   RE.str "Gemfile"]

/-- `Tier2RAGAnalyzer.needs_tier2_analysis`: the framework-identifying
tokens searched (lowercased) in the file content. -/
def rails_indicators : List String :=
  ["Rails.", "ActiveRecord", "ActionController", "ActionView",
   "ActionMailer", "config.", "gem ", "require ", "include ",
   "before_action", "before_filter", "validates", "scope",
   "belongs_to", "has_many", "has_one", "serialize",
   "update_attributes", "find_by_", "where("]

/-- `Tier2RAGAnalyzer.needs_tier2_analysis(file_path)`.  The source
re-reads the file to test the content indicators; reading is abstracted
by the `content` parameter (a failing read defaults to no RAG, which the
embedding does not model since reads are abstracted). -/
def needs_tier2_analysis (file_path content : String) : Bool :=
  let file_name := pyLower file_path
  if important_files.any (fun imp => strContains file_name imp) then true
  else if config_patterns_t2.any (fun r => reSearch r file_path) then true
  else if strEnds file_path ".rb" then
    rails_indicators.any (fun ind => strContains (pyLower content) (pyLower ind))
  else false

/-- `Tier2RAGAnalyzer._scan_for_potential_issues`: the potential-issue
patterns, in source order, matched with `re.IGNORECASE` (modelled by
lowering the line, so literals are transcribed lowercased). -/
def potential_patterns : List RE :=
  [ -- r'config\.\w+\s*='
    RE.seq [RE.str "config.", RE.pl RE.wd, RE.star RE.ws, RE.chr '='],
    -- r'Rails\.\w+\.'
    RE.seq [RE.str "rails.", RE.pl RE.wd, RE.chr '.'],
    -- r'ActiveRecord::\w+'
    RE.seq [RE.str "activerecord::", RE.pl RE.wd],
    -- r'ActionController::\w+'
    RE.seq [RE.str "actioncontroller::", RE.pl RE.wd],
    -- r'ActionDispatch::\w+'
    RE.seq [RE.str "actiondispatch::", RE.pl RE.wd],
    -- r'ActionMailer::\w+'
    RE.seq [RE.str "actionmailer::", RE.pl RE.wd],
    -- r'ActionView::\w+'
    RE.seq [RE.str "actionview::", RE.pl RE.wd],
    -- r'gem\s+[\'"][^\'"]+[\'"].*4\.\d+'
    RE.seq [RE.str "gem", RE.pl RE.ws, RE.qt, RE.pl (RE.cls (fun c => !isQuoteChar c)), RE.qt,
      RE.star RE.anyc, RE.str "4.", RE.pl RE.dig],
    -- r'serve_static_assets'
    RE.str "serve_static_assets",
    -- r'static_cache_control'
    RE.str "static_cache_control",
    -- r'raise_in_transactional_callbacks'
    RE.str "raise_in_transactional_callbacks",
    -- r'eager_load_paths'
    RE.str "eager_load_paths",
    -- r'autoload_paths'
    RE.str "autoload_paths",
    -- r'middleware\.use.*Params'
    RE.seq [RE.str "middleware.use", RE.star RE.anyc, RE.str "params"],
    -- r'attr_accessible'
    RE.str "attr_accessible",
    -- r'protected_attributes'
    RE.str "protected_attributes",
    -- r'paperclip'
    RE.str "paperclip",
    -- r'factory_girl'
    RE.str "factory_girl",
    -- r'rails-observers'
    RE.str "rails-observers",
    -- r'quiet_assets'
    RE.str "quiet_assets",
    -- r'mysql2.*0\.[34]'
    RE.seq [RE.str "mysql2", RE.star RE.anyc, RE.str "0.", RE.cls (fun c => c = '3' || c = '4')],
    -- r'devise_parameter_sanitizer\.for'
    RE.str "devise_parameter_sanitizer.for",
    -- r'before_filter'
    RE.str "before_filter",
    -- r'update_attributes'
    RE.str "update_attributes",
    -- r'\.find_by_\w+\('
    RE.seq [RE.chr '.', RE.str "find_by_", RE.pl RE.wd, RE.chr '('],
    -- r'\.find_all_by_\w+\('
    RE.seq [RE.chr '.', RE.str "find_all_by_", RE.pl RE.wd, RE.chr '('],
    -- r'\.find_or_create_by_\w+\('
    RE.seq [RE.chr '.', RE.str "find_or_create_by_", RE.pl RE.wd, RE.chr '('],
    -- r'scope\s*:.*lambda'
    RE.seq [RE.str "scope", RE.star RE.ws, RE.chr ':', RE.star RE.anyc, RE.str "lambda"],
    -- r'validates_\w+_of'
    RE.seq [RE.str "validates_", RE.pl RE.wd, RE.str "_of"],
    -- r'RAILS_ENV'
    RE.str "rails_env",
    -- r'RAILS_ROOT'
    RE.str "rails_root",
    -- r'ActionController::Routing'
    RE.str "actioncontroller::routing"]

/-- `Tier2RAGAnalyzer._scan_for_potential_issues` (with its per-line
`break`): `(line_number, line.strip())` for each line matching some
pattern. -/
def scan_for_potential_issues (content : String) : List (Nat × String) :=
  (pyEnum 1 (pyLines content)).flatMap (fun p =>
    if potential_patterns.any (fun r => reSearch r (pyLower p.2)) then
      [(p.1, pyStrip p.2)]
    else [])

/-- `Tier2RAGAnalyzer.analyze_with_rag(file_path, content, file_context)`.
The retriever object is modelled by `retrPresent` (is it non-`None`?) and
`fallbackContexts` (the hits its legacy per-query searches would return,
only consulted when `file_context` is empty); `κ` is the opaque type of
retrieved context entries. -/
def analyze_with_rag {κ : Type} (retrPresent : Bool) (fallbackContexts : List κ)
    (file_path content : String) (file_context : List κ) : List DetectionResult :=
  if !retrPresent && file_context.isEmpty then []
  else
    let all_contexts := if !file_context.isEmpty then file_context else fallbackContexts
    if !all_contexts.isEmpty then
      (scan_for_potential_issues content).map (fun p =>
        { file_path := file_path
          pattern_type := "complex_deprecation"
          line_number := p.1
          line_content := p.2
          method_context := none
          confidence := TIER_2_CONFIDENCE })
    else []

/-- `HybridRailsAnalyzer._get_file_context`: the per-file context cache,
an insertion-ordered map (Python `dict`) modelled as an association list
in insertion order.  `computeCtx` stands for the retrieval pipeline that
builds a fresh context (`_generate_search_queries` plus up to two
retriever searches) — it involves the external embedding/index services
and does not touch the cache.  On a miss at capacity the first
(oldest-inserted) entry — Python's `next(iter(dict))` — is deleted before
inserting. -/
def get_file_context {κ : Type} (computeCtx : String → String → List κ)
    (cache : List (String × List κ)) (file_path content : String) :
    List (String × List κ) × List κ :=
  match List.lookup file_path cache with
  | some v => (cache, v)
  | none =>
    let file_context := computeCtx file_path content
    let cache2 :=
      if FILE_CONTEXT_CACHE_SIZE ≤ cache.length then cache.drop 1 else cache
    (cache2 ++ [(file_path, file_context)], file_context)

/-- The suggestion dict built by `_process_tier1_issue` /
`_process_tier2_issue` (the `method_context` key is only present on the
mass-assignment branch; `none` models its absence). -/
structure Suggestion where
  issue_type : String
  tier : String
  line_number : Nat
  original_code : String
  refactored_code : String
  explanation : String
  confidence : ℚ
  method_context : Option MethodContext := none
deriving DecidableEq, Repr

/-- `HybridRailsAnalyzer._process_tier1_issue`.  On the mass-assignment
branch the refactored code is produced by building a strong-parameters
prompt, calling the local LLM and sanitizing its answer
(`build_strong_params_prompt` / `LocalLLM.generate` /
`_clean_llm_response` / `_extract_ruby_code`); the generator is an
external service, so that composite line-to-code computation is the
parameter `massRefactor`.  On the simple-substitution branch the rule's
regex is substituted directly (`re.sub`); the table lookup cannot miss
for issues produced by the detector, and on a miss the line is returned
unchanged (the source would apply `re.sub('', '', line)`). -/
def process_tier1_issue (massRefactor : DetectionResult → String)
    (issue : DetectionResult) : Suggestion :=
  if issue.pattern_type = "mass_assignment" ∨
      issue.pattern_type = "mass_assignment_with_deprecation" then
    { issue_type := issue.pattern_type
      tier := "tier1"
      line_number := issue.line_number
      original_code := issue.line_content
      refactored_code := massRefactor issue
      explanation := "Mass assignment vulnerability fixed with strong parameters"
      confidence := issue.confidence
      method_context := issue.method_context }
  else
    match List.lookup issue.pattern_type simple_patterns with
    | some rule =>
      { issue_type := issue.pattern_type
        tier := "tier1"
        line_number := issue.line_number
        original_code := issue.line_content
        refactored_code := reSub rule.pattern rule.replacement issue.line_content
        explanation := rule.explanation
        confidence := issue.confidence
        method_context := none }
    | none =>
      { issue_type := issue.pattern_type
        tier := "tier1"
        line_number := issue.line_number
        original_code := issue.line_content
        refactored_code := issue.line_content
        explanation := "Deprecation fixed"
        confidence := issue.confidence
        method_context := none }

/-- The Tier 2 loop of `analyze_file`: for each issue, skip detailed
processing entirely when more than five Tier 2 issues were detected
("too many issues, prevent hanging"); otherwise run
`_process_tier2_issue` (LLM-dependent, hence the `processT2` parameter)
and append its suggestion when it is not `None`. -/
def tier2SuggestionLoop (processT2 : DetectionResult → Option Suggestion)
    (tier2_issues : List DetectionResult) : List Suggestion :=
  tier2_issues.foldl
    (fun acc issue =>
      if 5 < tier2_issues.length then acc
      else
        match processT2 issue with
        | some s => acc ++ [s]
        | none => acc)
    []

/-- The result dict of `HybridRailsAnalyzer.analyze_file`. -/
structure FileResults where
  file_path : String
  target_version : String
  tier1_issues : List DetectionResult
  tier2_issues : List DetectionResult
  total_issues : Nat
  suggestions : List Suggestion
deriving DecidableEq, Repr

/-- `HybridRailsAnalyzer.analyze_file(file_path, target_version)` after a
successful read of `content` (reads are abstracted; a failing read
returns an error dict).  Tier 1 issues are each converted by
`_process_tier1_issue` and appended unconditionally — the returned dict
is non-empty, hence always truthy.  Tier 2 runs when the eligibility
disjunction holds, reading the context through the cache; the updated
cache is returned alongside the results. -/
def analyze_file {κ : Type} (massRefactor : DetectionResult → String)
    (processT2 : DetectionResult → Option Suggestion)
    (computeCtx : String → String → List κ)
    (retrPresent : Bool) (fallbackContexts : List κ)
    (cache : List (String × List κ))
    (file_path content target_version : String) :
    FileResults × List (String × List κ) :=
  let tier1_issues := detect_all_tier1_issues file_path content
  let tier1_suggestions := tier1_issues.map (process_tier1_issue massRefactor)
  let tier2_should_run :=
    needs_tier2_analysis file_path content || strEnds file_path ".rb" ||
      strContains (pyLower content) "rails" || strContains (pyLower file_path) "config"
  if tier2_should_run then
    let ctx := get_file_context computeCtx cache file_path content
    let tier2_issues := analyze_with_rag retrPresent fallbackContexts file_path content ctx.2
    let tier2_suggestions := tier2SuggestionLoop processT2 tier2_issues
    ({ file_path := file_path
       target_version := target_version
       tier1_issues := tier1_issues
       tier2_issues := tier2_issues
       total_issues := tier1_issues.length + tier2_issues.length
       suggestions := tier1_suggestions ++ tier2_suggestions }, ctx.1)
  else
    ({ file_path := file_path
       target_version := target_version
       tier1_issues := tier1_issues
       tier2_issues := []
       total_issues := tier1_issues.length + 0
       suggestions := tier1_suggestions }, cache)

/-! ### `HybridRailsAnalyzer._extract_ruby_code` (the sanitizer's
extraction stage) -/

/-- The corruption indicators whose presence (in the lowercased line)
drops the line, in source order. -/
def ruby_skip_indicators : List String :=
  ["print(", "console.log", "puts ", "\", updated_code)", "\", explanation)",
   "reference_link", "tensorflow", "import os", "mnist", "django",
   "sdfgdsfg", "qwerqwer", "asdfghjkl", "from django"]

/-- The first filter of `_extract_ruby_code`: keep a line iff no skip
indicator occurs in it (lowercased) and it is non-blank and not a
comment. -/
def ruby_keep_line (line : String) : Bool :=
  !(ruby_skip_indicators.any (fun ind => strContains (pyLower line) ind)) &&
    (pyStrip line != "") && !(strStarts (pyStrip line) "#")

/-- Regex `r'```ruby\n?'` (written with an explicit head character). -/
def reTickRuby : RE :=
  RE.cat (RE.chr (Char.ofNat 96)) (RE.seq [RE.str "``ruby", RE.opt (RE.chr '\n')])

/-- Regex `r'```\n?'`. -/
def reTickAny : RE :=
  RE.cat (RE.chr (Char.ofNat 96)) (RE.seq [RE.str "``", RE.opt (RE.chr '\n')])

/-- Regex `r'<[^>]+>'`. -/
def reHtmlTag : RE :=
  RE.cat (RE.chr '<') (RE.seq [RE.pl (RE.cls (fun c => c ≠ '>')), RE.chr '>'])

/-- The trailing-prose separators of `_extract_ruby_code`, in source
order (`cleaned = cleaned.split(sep)[0]` for the first one present). -/
def ruby_separators : List String :=
  ["\nThis solution", "\nThe above", "\nThis code", "\nNote:",
   "\nExplanation:", "REFERENCE LINK", "explainaiton:", "explanation:"]

/-- Python `s.split(sep)[0]`: the prefix before the first occurrence. -/
def chTakeBefore : List Char → List Char → List Char
  | [], _ => []
  | c :: t, sep => if sep.isPrefixOf (c :: t) then [] else c :: chTakeBefore t sep

/-- The def/end-counting loop of `_extract_ruby_code`: skip blank lines
before capture starts; a line whose stripped form starts with `def `,
`class `, `module ` or `private` starts (or continues) capture and adds
its `'def '` substring count (plus one for `class `/`module `) to the
def-counter; captured lines accumulate; a stripped `end` line bumps the
end-counter; once both counters are positive and equal the loop breaks,
discarding everything after. -/
def extractRubyLoop : List String → Bool → Nat → Nat → List String → List String
  | [], _, _, _, acc => acc
  | line :: rest, in_method, def_count, end_count, acc =>
    let stripped := pyStrip line
    if acc.isEmpty ∧ stripped = "" then
      extractRubyLoop rest in_method def_count end_count acc
    else
      let starts_def := strStarts stripped "def " || strStarts stripped "class " ||
        strStarts stripped "module " || strStarts stripped "private"
      let in_method2 := in_method || starts_def
      let def_count2 :=
        if starts_def then
          def_count + strCount stripped "def " +
            (if strStarts stripped "class " || strStarts stripped "module " then 1 else 0)
        else def_count
      if in_method2 then
        let acc2 := acc ++ [line]
        let end_count2 := if stripped = "end" then end_count + 1 else end_count
        if 0 < def_count2 ∧ def_count2 = end_count2 then acc2
        else extractRubyLoop rest in_method2 def_count2 end_count2 acc2
      else
        extractRubyLoop rest in_method2 def_count2 end_count acc

/-- `HybridRailsAnalyzer._extract_ruby_code(response)`. -/
def extract_ruby_code (response : String) : String :=
  if response == "" || pyStrip response == "" then ""
  else
    let lines := pyLines response
    let clean_lines := lines.filter ruby_keep_line
    if clean_lines.isEmpty then ""
    else
      let cleaned := pyJoin clean_lines
      let cleaned := reSub reTickRuby "" cleaned
      let cleaned := reSub reTickAny "" cleaned
      let cleaned := reSub reHtmlTag "" cleaned
      let cleaned := ruby_separators.foldl
        (fun s sep => if strContains s sep then ⟨chTakeBefore s.data sep.data⟩ else s)
        cleaned
      let lines2 := pyLines cleaned
      let ruby_lines := extractRubyLoop lines2 false 0 0 []
      if !ruby_lines.isEmpty then pyStrip (pyJoin ruby_lines)
      else
        match lines2.find? (fun l => (pyStrip l != "") && !(strStarts (pyStrip l) "#")) with
        | some l => pyStrip l
        | none => ⟨(pyStrip cleaned).data.take 200⟩

/-! ## Embedding of `src/retriever/retriever.py` -/

/-- One element of `Retriever.search`'s result list. -/
structure SearchHit (μ : Type) where
  id : Int
  score : ℚ
  meta : μ
deriving DecidableEq, Repr

/-- The `Retriever` object.  The sentence-transformer embedder
(`embed`), faiss's in-place L2 normalization (`normalizeL2`) and the
faiss index (`indexSearch`, returning the row `(D[0], I[0])` of scores
and ids) are external services, modelled as opaque function fields over
an abstract embedding type `ε`; `metas` is the metadata list loaded from
the meta .jsonl file (position = doc id), with entries of abstract type
`μ`.  Scores (float32 similarities) are modelled as rationals. -/
structure Retriever (ε μ : Type) where
  embed : String → ε
  normalizeL2 : ε → ε
  indexSearch : ε → Nat → List ℚ × List Int
  metas : List μ

/-- The result loop of `Retriever.search`: for each `(sid, score)` pair
of `zip(ids, scores)`, skip `sid < 0`, otherwise look up
`self.metas[sid]` (an out-of-range id would raise `IndexError`, modelled
by `none`). -/
def buildHits {μ : Type} (metas : List μ) :
    List (Int × ℚ) → Option (List (SearchHit μ))
  | [] => some []
  | (sid, score) :: rest =>
    if sid < 0 then buildHits metas rest
    else
      match metas[sid.toNat]? with
      | none => none
      | some m => (buildHits metas rest).map (fun l => ⟨sid, score, m⟩ :: l)

/-- `Retriever.search(query, top_k)`. -/
def Retriever.search {ε μ : Type} (r : Retriever ε μ) (query : String)
    (top_k : Nat) : Option (List (SearchHit μ)) :=
  let q_emb := r.normalizeL2 (r.embed query)
  let ds_is := r.indexSearch q_emb top_k
  buildHits r.metas (ds_is.2.zip ds_is.1)

/-! ### Abbreviations used to reason about the extraction loop -/

/-- The def-counter increment the `_extract_ruby_code` loop applies for
one (captured) line. -/
def rubyDefInc (l : String) : Nat :=
  if strStarts (pyStrip l) "def " || strStarts (pyStrip l) "class " ||
      strStarts (pyStrip l) "module " || strStarts (pyStrip l) "private" then
    strCount (pyStrip l) "def " +
      (if strStarts (pyStrip l) "class " || strStarts (pyStrip l) "module " then 1 else 0)
  else 0

/-- The end-counter increment the loop applies for one line. -/
def rubyEndInc (l : String) : Nat := if pyStrip l = "end" then 1 else 0

def rubyDefSum (L : List String) : Nat := (L.map rubyDefInc).sum

def rubyEndSum (L : List String) : Nat := (L.map rubyEndInc).sum

/-- Can `sep` start an occurrence (possibly running past the end) at a
position strictly inside `s`?  Decidable form of the hypothesis that no
trailing-prose separator cuts into the balanced definition. -/
def chOverlapsAt (s sep : List Char) : Bool :=
  (List.range s.length).any (fun i =>
    if sep.length ≤ (s.drop i).length then sep.isPrefixOf (s.drop i)
    else (s.drop i).isPrefixOf sep)

/-! ## Theorems

Shared lemmas first, then one theorem per claim (with witnesses). -/

theorem pyEnum_mem_char {α : Type} {l : List α} :
    ∀ {start j : Nat} {x : α}, (j, x) ∈ pyEnum start l →
      start ≤ j ∧ l[j - start]? = some x := by
  induction l with
  | nil => intro start j x h; simp [pyEnum] at h
  | cons hd tl ih =>
    intro start j x h
    simp only [pyEnum, List.mem_cons] at h
    rcases h with h | h
    · have hj : j = start := congrArg Prod.fst h
      have hx : x = hd := congrArg Prod.snd h
      subst hj; subst hx
      simp
    · obtain ⟨h1, h2⟩ := ih h
      refine ⟨by omega, ?_⟩
      have hidx : j - start = (j - (start + 1)) + 1 := by omega
      rw [hidx]
      simpa using h2

/-- Results contributed by the per-line function of an `enumerate` scan
whose index is below the scan's start are absent. -/
theorem pyEnum_flatMap_none {β : Type} (idx : β → Nat) (g : Nat × String → List β)
    (hg : ∀ p b, b ∈ g p → idx b = p.1) (lines : List String) (start j : Nat)
    (h : j < start) :
    ((pyEnum start lines).flatMap g).filter (fun b => idx b == j) = [] := by
  rw [List.filter_eq_nil_iff]
  intro b hb
  obtain ⟨p, hp, hbp⟩ := List.mem_flatMap.mp hb
  obtain ⟨n, x⟩ := p
  obtain ⟨h1, _⟩ := pyEnum_mem_char hp
  have h2 := hg (n, x) b hbp
  simp only [beq_iff_eq]
  simp only at h2
  omega

/-- An `enumerate(lines, start)` scan contributing per-line results
tagged with the line index, filtered to one index `j`, is exactly the
contribution of line `j`. -/
theorem pyEnum_flatMap_filter {β : Type} (idx : β → Nat) (g : Nat × String → List β)
    (hg : ∀ p b, b ∈ g p → idx b = p.1) :
    ∀ (lines : List String) (start j : Nat), start ≤ j →
      ((pyEnum start lines).flatMap g).filter (fun b => idx b == j) =
        (match lines[j - start]? with
         | some l => g (j, l)
         | none => []) := by
  intro lines
  induction lines with
  | nil => intro start j _; simp [pyEnum]
  | cons hd tl ih =>
    intro start j hle
    simp only [pyEnum, List.flatMap_cons, List.filter_append]
    rcases Nat.eq_or_lt_of_le hle with heq | hlt
    · subst heq
      rw [pyEnum_flatMap_none idx g hg tl (start + 1) start (by omega)]
      have hself : (g (start, hd)).filter (fun b => idx b == start) = g (start, hd) := by
        rw [List.filter_eq_self]
        intro b hb
        simp [hg (start, hd) b hb]
      simp [hself]
    · have hnil : (g (start, hd)).filter (fun b => idx b == j) = [] := by
        rw [List.filter_eq_nil_iff]
        intro b hb
        have h2 := hg (start, hd) b hb
        simp only at h2
        simp only [beq_iff_eq]
        omega
      rw [hnil]
      have hidx : j - start = (j - (start + 1)) + 1 := by omega
      rw [ih (start + 1) j (by omega), hidx]
      simp

/-- Characterization of a reported mass-assignment risk: it names a real
(1-based) line that is non-blank, matches no safe pattern, matches a risk
pattern, and is reported stripped. -/
theorem mem_risks_char {content : String} {n : Nat} {s : String}
    (h : (n, s) ∈ find_mass_assignment_risks content) :
    1 ≤ n ∧ ∃ line, (pyLines content)[n - 1]? = some line ∧
      pyStrip line ≠ "" ∧ isSafeLine line = false ∧ isRiskLine line = true ∧
      s = pyStrip line := by
  obtain ⟨p, hp, hmem⟩ := List.mem_flatMap.mp h
  obtain ⟨m, line⟩ := p
  obtain ⟨h1, h2⟩ := pyEnum_mem_char hp
  simp only at hmem
  by_cases hblank : pyStrip line = ""
  · simp [hblank] at hmem
  · rw [if_neg hblank] at hmem
    by_cases hsafe : isSafeLine line = true
    · simp [hsafe] at hmem
    · rw [if_neg hsafe] at hmem
      by_cases hrisk : isRiskLine line = true
      · rw [if_pos hrisk] at hmem
        simp only [List.mem_singleton, Prod.mk.injEq] at hmem
        obtain ⟨hn, hs⟩ := hmem
        subst hn
        exact ⟨h1, line, h2, hblank, Bool.not_eq_true _ ▸ Bool.eq_false_iff.mpr hsafe, hrisk, hs⟩
      · simp [hrisk] at hmem

/-- A mass-assignment `DetectionResult` reports a pair that
`find_mass_assignment_risks` reported. -/
theorem mem_detect_mass_risk {path content : String} {r : DetectionResult}
    (h : r ∈ detect_mass_assignment path content) :
    (r.line_number, r.line_content) ∈ find_mass_assignment_risks content := by
  unfold detect_mass_assignment at h
  by_cases hc : is_controller_file path = true
  · rw [if_neg (by simp [hc])] at h
    obtain ⟨p, hp, hpe⟩ := List.mem_map.mp h
    subst hpe
    simpa using hp
  · simp [Bool.not_eq_true _ ▸ Bool.eq_false_iff.mpr hc] at h

/-- A mass-assignment `DetectionResult` has one of the two
mass-assignment pattern types. -/
theorem mem_detect_mass_type {path content : String} {r : DetectionResult}
    (h : r ∈ detect_mass_assignment path content) :
    r.pattern_type = "mass_assignment" ∨
      r.pattern_type = "mass_assignment_with_deprecation" := by
  unfold detect_mass_assignment at h
  by_cases hc : is_controller_file path = true
  · rw [if_neg (by simp [hc])] at h
    obtain ⟨p, _, hpe⟩ := List.mem_map.mp h
    subst hpe
    by_cases hu : strContains p.2 "update_attributes" = true
    · right; simp [hu]
    · left; simp [hu]
  · simp [Bool.not_eq_true _ ▸ Bool.eq_false_iff.mpr hc] at h

/-- A simple-substitution `DetectionResult` is tagged with a rule name
from the table and its line was not in the processed set. -/
theorem mem_detect_simple_char {path content : String} {processed : List Nat}
    {r : DetectionResult} (h : r ∈ detect_simple_deprecations path content processed) :
    r.pattern_type ∈ simple_patterns.map Prod.fst ∧
      processed.contains r.line_number = false := by
  obtain ⟨p, _, hmem⟩ := List.mem_flatMap.mp h
  obtain ⟨m, line⟩ := p
  unfold simpleScanLine at hmem
  simp only [List.mem_ite_nil_left] at hmem
  obtain ⟨hproc, _, hr⟩ := hmem
  cases hfind : firstSimpleMatch line with
  | none => rw [hfind] at hr; simp at hr
  | some pr =>
    rw [hfind] at hr
    simp only [List.mem_singleton] at hr
    subst hr
    refine ⟨List.mem_map.mpr ⟨pr, List.mem_of_find?_eq_some hfind, rfl⟩, ?_⟩
    cases hc : processed.contains m with
    | false => rfl
    | true => exact absurd (by simpa using hc) hproc

/-- C4: a line of controller content matching any safe/exclusion pattern
(strong-parameter usage, a comment, a `*_params` method definition) is
never reported as a mass-assignment risk by
`find_mass_assignment_risks`, even if it also matches a risk pattern;
and the line `User.find(params[:id])` is never flagged. -/
theorem mass_assignment_exclusion_precedence
    (content : String) (n : Nat) (line s : String)
    (hline : (pyLines content)[n - 1]? = some line) :
    (isSafeLine line = true → (n, s) ∉ find_mass_assignment_risks content) ∧
      (line = "User.find(params[:id])" → (n, s) ∉ find_mass_assignment_risks content) := by
  constructor
  · intro hsafe hmem
    obtain ⟨h1, line2, hline2, _, hsafe2, _, _⟩ := mem_risks_char hmem
    rw [hline] at hline2
    injection hline2 with he
    rw [he] at hsafe
    rw [hsafe] at hsafe2
    exact Bool.noConfusion hsafe2
  · intro heq hmem
    obtain ⟨h1, line2, hline2, _, _, hrisk2, _⟩ := mem_risks_char hmem
    rw [hline] at hline2
    injection hline2 with he
    rw [← he, heq] at hrisk2
    have hfalse : isRiskLine "User.find(params[:id])" = false := by decide
    rw [hfalse] at hrisk2
    exact Bool.noConfusion hrisk2

theorem mass_assignment_exclusion_precedence_witness :
    (1, "@user.update(params[:user]) # legacy") ∉
        find_mass_assignment_risks "@user.update(params[:user]) # legacy" ∧
      (1, "User.find(params[:id])") ∉
        find_mass_assignment_risks "User.find(params[:id])" := by
  constructor
  · exact (mass_assignment_exclusion_precedence "@user.update(params[:user]) # legacy" 1
      "@user.update(params[:user]) # legacy" "@user.update(params[:user]) # legacy"
      (by rfl)).1 (by decide)
  · exact (mass_assignment_exclusion_precedence "User.find(params[:id])" 1
      "User.find(params[:id])" "User.find(params[:id])" (by rfl)).2 rfl

/-- C5: in the output of `detect_all_tier1_issues` no line number is
shared between a contextual (mass-assignment) result and a
simple-substitution result. -/
theorem tier1_no_double_reporting
    (path content : String) (r1 r2 : DetectionResult)
    (h1 : r1 ∈ detect_all_tier1_issues path content)
    (h2 : r2 ∈ detect_all_tier1_issues path content)
    (hm1 : r1.pattern_type = "mass_assignment" ∨
      r1.pattern_type = "mass_assignment_with_deprecation")
    (hm2 : ¬(r2.pattern_type = "mass_assignment" ∨
      r2.pattern_type = "mass_assignment_with_deprecation")) :
    r1.line_number ≠ r2.line_number := by
  unfold detect_all_tier1_issues at h1 h2
  rw [List.mem_append] at h1 h2
  have hr1 : r1 ∈ detect_mass_assignment path content := by
    rcases h1 with h | h
    · exact h
    · exfalso
      obtain ⟨hkey, _⟩ := mem_detect_simple_char h
      rcases hm1 with he | he <;> rw [he] at hkey <;> revert hkey <;> decide
  have hr2 : r2 ∈ detect_simple_deprecations path content
      ((detect_mass_assignment path content).map (·.line_number)) := by
    rcases h2 with h | h
    · exact absurd (mem_detect_mass_type h) hm2
    · exact h
  obtain ⟨_, hnc⟩ := mem_detect_simple_char hr2
  intro heq
  have hmemnum : r2.line_number ∈ (detect_mass_assignment path content).map (·.line_number) :=
    List.mem_map.mpr ⟨r1, hr1, heq⟩
  have hcontr : ((detect_mass_assignment path content).map (·.line_number)).contains
      r2.line_number = true := by simpa using hmemnum
  rw [hnc] at hcontr
  exact Bool.noConfusion hcontr

theorem tier1_no_double_reporting_witness :
    ({ file_path := "app/controllers/users_controller.rb", pattern_type := "mass_assignment",
       line_number := 1, line_content := "u = User.new(params[:u])", method_context := none,
       confidence := 0.9 } : DetectionResult).line_number ≠
      ({ file_path := "app/controllers/users_controller.rb",
         pattern_type := "before_filter_deprecation", line_number := 2,
         line_content := "before_filter :x", method_context := none,
         confidence := 0.95 } : DetectionResult).line_number := by
  have hall : detect_all_tier1_issues "app/controllers/users_controller.rb"
      "u = User.new(params[:u])\nbefore_filter :x" =
      [{ file_path := "app/controllers/users_controller.rb", pattern_type := "mass_assignment",
         line_number := 1, line_content := "u = User.new(params[:u])", method_context := none,
         confidence := 0.9 },
       { file_path := "app/controllers/users_controller.rb",
         pattern_type := "before_filter_deprecation", line_number := 2,
         line_content := "before_filter :x", method_context := none,
         confidence := 0.95 }] := by rfl
  exact tier1_no_double_reporting "app/controllers/users_controller.rb"
    "u = User.new(params[:u])\nbefore_filter :x" _ _
    (by rw [hall]; simp) (by rw [hall]; simp) (by left; rfl) (by decide)

/-- `_process_tier1_issue` preserves the issue's line number. -/
theorem process_tier1_issue_line_number (massRefactor : DetectionResult → String)
    (issue : DetectionResult) :
    (process_tier1_issue massRefactor issue).line_number = issue.line_number := by
  unfold process_tier1_issue
  split
  · rfl
  · split <;> rfl

/-- C3: a file whose `j`-th line is `before_filter :authenticate_user!`
gets exactly one Tier 1 suggestion for that line: type
`before_filter_deprecation`, rewritten to
`before_action :authenticate_user!`, confidence `0.95`. -/
theorem tier1_before_filter_scenario
    (massRefactor : DetectionResult → String) (path content : String) (j : Nat)
    (hj : 1 ≤ j)
    (hline : (pyLines content)[j - 1]? = some "before_filter :authenticate_user!") :
    ((detect_all_tier1_issues path content).map (process_tier1_issue massRefactor)).filter
        (fun sg => sg.line_number == j) =
      [{ issue_type := "before_filter_deprecation", tier := "tier1", line_number := j,
         original_code := "before_filter :authenticate_user!",
         refactored_code := "before_action :authenticate_user!",
         explanation := "before_filter is deprecated in Rails 5+, use before_action instead",
         confidence := 0.95, method_context := none }] := by
  have hmassline : ∀ r ∈ detect_mass_assignment path content, r.line_number ≠ j := by
    intro r hr heq
    obtain ⟨_, line2, hl2, _, _, hrisk2, _⟩ := mem_risks_char (mem_detect_mass_risk hr)
    rw [heq, hline] at hl2
    injection hl2 with he
    rw [← he] at hrisk2
    have hfalse : isRiskLine "before_filter :authenticate_user!" = false := by decide
    rw [hfalse] at hrisk2
    exact Bool.noConfusion hrisk2
  have hcontains : ((detect_mass_assignment path content).map (·.line_number)).contains j
      = false := by
    cases hc : ((detect_mass_assignment path content).map (·.line_number)).contains j with
    | false => rfl
    | true =>
      obtain ⟨r, hr, hre⟩ := List.mem_map.mp (by simpa using hc)
      exact absurd hre (hmassline r hr)
  unfold detect_all_tier1_issues
  rw [List.map_append, List.filter_append]
  have hmassnil : ((detect_mass_assignment path content).map
      (process_tier1_issue massRefactor)).filter (fun sg => sg.line_number == j) = [] := by
    rw [List.filter_eq_nil_iff]
    intro sg hsg
    obtain ⟨r, hr, hre⟩ := List.mem_map.mp hsg
    subst hre
    rw [process_tier1_issue_line_number]
    simpa using hmassline r hr
  rw [hmassnil, List.nil_append, List.filter_map]
  have hcong : List.filter ((fun sg => sg.line_number == j) ∘ process_tier1_issue massRefactor)
      (detect_simple_deprecations path content
        ((detect_mass_assignment path content).map (·.line_number))) =
      List.filter (fun r => r.line_number == j)
      (detect_simple_deprecations path content
        ((detect_mass_assignment path content).map (·.line_number))) := by
    apply List.filter_congr
    intro r _
    simp [Function.comp, process_tier1_issue_line_number]
  rw [hcong]
  have hg : ∀ (p : Nat × String) (b : DetectionResult),
      b ∈ simpleScanLine path ((detect_mass_assignment path content).map (·.line_number)) p →
        b.line_number = p.1 := by
    intro p b hb
    unfold simpleScanLine at hb
    simp only [List.mem_ite_nil_left] at hb
    obtain ⟨_, _, hb⟩ := hb
    cases hf : firstSimpleMatch p.2 with
    | none => rw [hf] at hb; simp at hb
    | some pr =>
      rw [hf] at hb
      simp only [List.mem_singleton] at hb
      subst hb
      rfl
  have key := pyEnum_flatMap_filter (fun r => r.line_number)
    (simpleScanLine path ((detect_mass_assignment path content).map (·.line_number)))
    hg (pyLines content) 1 j hj
  rw [hline] at key
  unfold detect_simple_deprecations
  rw [key]
  simp only [simpleScanLine, hcontains, Bool.false_eq_true, if_false]
  rfl

theorem tier1_before_filter_scenario_witness :
    ((detect_all_tier1_issues "app/models/user.rb" "before_filter :authenticate_user!").map
        (process_tier1_issue (fun _ => ""))).filter (fun sg => sg.line_number == 1) =
      [{ issue_type := "before_filter_deprecation", tier := "tier1", line_number := 1,
         original_code := "before_filter :authenticate_user!",
         refactored_code := "before_action :authenticate_user!",
         explanation := "before_filter is deprecated in Rails 5+, use before_action instead",
         confidence := 0.95, method_context := none }] :=
  tier1_before_filter_scenario (fun _ => "") "app/models/user.rb"
    "before_filter :authenticate_user!" 1 (by decide) (by rfl)

/-- C1 (refuting the claim): on the Tier 1 path, `analyze_file` appends
the suggestion dict (always truthy) before its old-vs-new comparison, so
a rule whose replacement reproduces the matched text —
`session_store_config` rewrites `Rails.application.config.session_store
:cookie_store` to itself — yields a retained suggestion with
`refactored_code.strip() == original_code.strip()` (the log even prints
"Skipped: Old and new code are the same" after having appended it). -/
theorem analyze_file_noop_suggestion_emitted :
    ∃ sg ∈ ((analyze_file (fun _ => "") (fun _ => none) (fun _ _ => ([] : List Nat))
        false [] [] "example.rb"
        "Rails.application.config.session_store :cookie_store" "7.0").1).suggestions,
      pyStrip sg.refactored_code = pyStrip sg.original_code := by
  refine ⟨{ issue_type := "session_store_config", tier := "tier1", line_number := 1,
            original_code := "Rails.application.config.session_store :cookie_store",
            refactored_code := "Rails.application.config.session_store :cookie_store",
            explanation := "Session store configuration may need updates for Rails 6+ security requirements",
            confidence := 0.7, method_context := none }, ?_, rfl⟩
  have h : ((analyze_file (fun _ => "") (fun _ => none) (fun _ _ => ([] : List Nat))
      false [] [] "example.rb"
      "Rails.application.config.session_store :cookie_store" "7.0").1).suggestions =
      [{ issue_type := "session_store_config", tier := "tier1", line_number := 1,
         original_code := "Rails.application.config.session_store :cookie_store",
         refactored_code := "Rails.application.config.session_store :cookie_store",
         explanation := "Session store configuration may need updates for Rails 6+ security requirements",
         confidence := 0.7, method_context := none }] := by rfl
  rw [h]
  exact List.mem_singleton.mpr rfl

/-- When more than five Tier 2 issues were detected, every iteration of
the suggestion loop takes the skip branch. -/
theorem tier2Loop_overflow (processT2 : DetectionResult → Option Suggestion)
    (issues : List DetectionResult) (h : 5 < issues.length) :
    tier2SuggestionLoop processT2 issues = [] := by
  unfold tier2SuggestionLoop
  have hstep : ∀ (l : List DetectionResult) (acc : List Suggestion),
      l.foldl
        (fun acc issue =>
          if 5 < issues.length then acc
          else
            match processT2 issue with
            | some s => acc ++ [s]
            | none => acc)
        acc = acc := by
    intro l
    induction l with
    | nil => intro acc; rfl
    | cons hd tl ih =>
      intro acc
      rw [List.foldl_cons, if_pos h]
      exact ih acc
  exact hstep issues []

/-- C9: when Tier 2 detects more than five issues in a file,
`analyze_file` emits no Tier 2 suggestion at all (its suggestion list is
exactly the Tier 1 conversions), while all detected Tier 2 issues remain
in `tier2_issues` and are counted in `total_issues`. -/
theorem analyze_file_tier2_overflow_skip {κ : Type}
    (massRefactor : DetectionResult → String)
    (processT2 : DetectionResult → Option Suggestion)
    (computeCtx : String → String → List κ) (retrPresent : Bool)
    (fallbackContexts : List κ) (cache : List (String × List κ))
    (file_path content target_version : String)
    (hover : 5 < ((analyze_file massRefactor processT2 computeCtx retrPresent
        fallbackContexts cache file_path content target_version).1).tier2_issues.length) :
    ((analyze_file massRefactor processT2 computeCtx retrPresent fallbackContexts cache
        file_path content target_version).1).suggestions =
      ((analyze_file massRefactor processT2 computeCtx retrPresent fallbackContexts cache
          file_path content target_version).1).tier1_issues.map
        (process_tier1_issue massRefactor) ∧
      ((analyze_file massRefactor processT2 computeCtx retrPresent fallbackContexts cache
          file_path content target_version).1).total_issues =
        ((analyze_file massRefactor processT2 computeCtx retrPresent fallbackContexts cache
            file_path content target_version).1).tier1_issues.length +
          ((analyze_file massRefactor processT2 computeCtx retrPresent fallbackContexts cache
              file_path content target_version).1).tier2_issues.length := by
  by_cases hrun : (needs_tier2_analysis file_path content || strEnds file_path ".rb" ||
      strContains (pyLower content) "rails" || strContains (pyLower file_path) "config") = true
  · simp only [analyze_file, hrun, if_true] at hover ⊢
    refine ⟨?_, trivial⟩
    rw [tier2Loop_overflow processT2 _ hover, List.append_nil]
  · simp only [analyze_file, hrun, if_false] at hover ⊢
    simp at hover

theorem analyze_file_tier2_overflow_skip_witness :
    ((analyze_file (fun _ => "") (fun _ => none) (fun _ _ => ([0] : List Nat)) true [] []
        "app/models/foo.rb"
        "config.a1 = 1\nconfig.a2 = 1\nconfig.a3 = 1\nconfig.a4 = 1\nconfig.a5 = 1\nconfig.a6 = 1"
        "7.0").1).suggestions = [] ∧
      ((analyze_file (fun _ => "") (fun _ => none) (fun _ _ => ([0] : List Nat)) true [] []
          "app/models/foo.rb"
          "config.a1 = 1\nconfig.a2 = 1\nconfig.a3 = 1\nconfig.a4 = 1\nconfig.a5 = 1\nconfig.a6 = 1"
          "7.0").1).total_issues = 6 := by
  have h := analyze_file_tier2_overflow_skip (fun _ => "") (fun _ => none)
    (fun _ _ => ([0] : List Nat)) true [] [] "app/models/foo.rb"
    "config.a1 = 1\nconfig.a2 = 1\nconfig.a3 = 1\nconfig.a4 = 1\nconfig.a5 = 1\nconfig.a6 = 1"
    "7.0" (by decide)
  obtain ⟨h1, h2⟩ := h
  constructor
  · rw [h1]
    rfl
  · rw [h2]
    rfl

/-- Membership in `rangeDown a b` bounds the element by `b + 1 ≤ i ≤ a`. -/
theorem mem_rangeDown {i a b : Nat} (h : i ∈ rangeDown a b) : b + 1 ≤ i ∧ i ≤ a := by
  unfold rangeDown at h
  rw [List.mem_reverse, List.mem_range'] at h
  obtain ⟨m, hm, he⟩ := h
  omega

/-- What a successful backward header scan returns: an index from the
scanned range whose line parses as a method-definition header. -/
theorem findHeaderBack_mem {lines : List String} :
    ∀ {idxs : List Nat} {i ind : Nat} {name : String},
      findHeaderBack lines idxs = some (i, ind, name) →
        i ∈ idxs ∧ parseDefHeader (lines.getD i "") = some (ind, name) := by
  intro idxs
  induction idxs with
  | nil => intro i ind name h; exact Option.noConfusion h
  | cons hd tl ih =>
    intro i ind name h
    unfold findHeaderBack at h
    cases hp : parseDefHeader (lines.getD hd "") with
    | some pr =>
      rw [hp] at h
      injection h with he
      obtain ⟨pi, pind⟩ := pr
      have h1 : hd = i := congrArg Prod.fst he
      have h2 : (pi, pind) = (ind, name) := congrArg Prod.snd he
      subst h1
      rw [hp, h2]
      exact ⟨List.mem_cons_self _ _, rfl⟩
    | none =>
      rw [hp] at h
      obtain ⟨hm, hp2⟩ := ih h
      exact ⟨List.mem_cons_of_mem _ hm, hp2⟩

/-- C10: with query line 1 the backward scan range is empty, so
`extract_method_context` returns `None`; and for any query line `≤ 100`
the scan range `range(line_number-1, max(0, line_number-100), -1)`
excludes index 0, so a header on the file's first line is never the one
found (the returned `start_line` is always `≥ 2`). -/
theorem extract_method_context_backscan_excludes_first_line :
    (∀ content : String, extract_method_context content 1 = none) ∧
      (∀ (content : String) (ln : Nat) (ctx : MethodContext), ln ≤ 100 →
        extract_method_context content ln = some ctx → 2 ≤ ctx.start_line) := by
  constructor
  · intro content
    unfold extract_method_context
    by_cases hlen : (pyLines content).length < 1
    · rw [if_pos (Or.inr hlen)]
    · rw [if_neg (by simp only [not_or]; exact ⟨by omega, hlen⟩)]
      have hr : rangeDown (1 - 1) (1 - 100) = ([] : List Nat) := rfl
      rw [hr]
      rfl
  · intro content ln ctx hln hsome
    unfold extract_method_context at hsome
    by_cases hguard : ln < 1 ∨ (pyLines content).length < ln
    · rw [if_pos hguard] at hsome
      exact Option.noConfusion hsome
    · rw [if_neg hguard] at hsome
      cases hfind : findHeaderBack (pyLines content) (rangeDown (ln - 1) (ln - 100)) with
      | none => rw [hfind] at hsome; exact Option.noConfusion hsome
      | some t =>
        obtain ⟨i, ind, name⟩ := t
        rw [hfind] at hsome
        obtain ⟨hmem, _⟩ := findHeaderBack_mem hfind
        obtain ⟨hge, _⟩ := mem_rangeDown hmem
        simp only [Option.some.injEq] at hsome
        rw [← hsome]
        show 2 ≤ i + 1
        omega

theorem extract_method_context_backscan_excludes_first_line_witness :
    extract_method_context "abc" 1 = none ∧
      2 ≤ ({ method_name := "foo", start_line := 2, end_line := 3,
             content := "def foo\nend", line_count := 2 } : MethodContext).start_line := by
  constructor
  · exact extract_method_context_backscan_excludes_first_line.1 "abc"
  · exact extract_method_context_backscan_excludes_first_line.2 "x\ndef foo\nend\nz" 3 _
      (by decide) (by rfl)

/-- C7: the file-context cache is a bounded FIFO.  (a) A hit returns the
cache unchanged, so accesses never affect the eviction order; (b) a miss
at capacity evicts exactly the head of the association list — the
oldest-inserted entry, since entries are only ever appended; (c) any
sequence of calls starting from the empty cache keeps at most
`FILE_CONTEXT_CACHE_SIZE` (100) entries. -/
theorem file_context_cache_fifo {κ : Type} (computeCtx : String → String → List κ)
    (cache : List (String × List κ)) (file_path content : String) :
    (∀ v, List.lookup file_path cache = some v →
        get_file_context computeCtx cache file_path content = (cache, v)) ∧
      (List.lookup file_path cache = none → cache.length = FILE_CONTEXT_CACHE_SIZE →
        (get_file_context computeCtx cache file_path content).1 =
          cache.drop 1 ++ [(file_path, computeCtx file_path content)]) ∧
      (cache.length ≤ FILE_CONTEXT_CACHE_SIZE →
        (get_file_context computeCtx cache file_path content).1.length ≤
          FILE_CONTEXT_CACHE_SIZE) ∧
      (∀ calls : List (String × String),
        (calls.foldl (fun c pc => (get_file_context computeCtx c pc.1 pc.2).1) []).length ≤
          FILE_CONTEXT_CACHE_SIZE) := by
  have hstep : ∀ (c : List (String × List κ)) (p ct : String), c.length ≤ FILE_CONTEXT_CACHE_SIZE →
      (get_file_context computeCtx c p ct).1.length ≤ FILE_CONTEXT_CACHE_SIZE := by
    intro c p ct hle
    unfold get_file_context
    simp only [FILE_CONTEXT_CACHE_SIZE] at hle ⊢
    cases hl : List.lookup p c with
    | some v => exact hle
    | none =>
      by_cases hcap : 100 ≤ c.length
      · rw [if_pos hcap]
        simp only [List.length_append, List.length_drop, List.length_singleton]
        omega
      · rw [if_neg hcap]
        simp only [List.length_append, List.length_singleton]
        omega
  refine ⟨?_, ?_, hstep cache file_path content, ?_⟩
  · intro v hv
    unfold get_file_context
    rw [hv]
  · intro hnone hfull
    unfold get_file_context
    rw [hnone, if_pos (by omega)]
  · intro calls
    have : ∀ (l : List (String × String)) (c : List (String × List κ)),
        c.length ≤ FILE_CONTEXT_CACHE_SIZE →
        (l.foldl (fun c pc => (get_file_context computeCtx c pc.1 pc.2).1) c).length ≤
          FILE_CONTEXT_CACHE_SIZE := by
      intro l
      induction l with
      | nil => intro c hc; exact hc
      | cons hd tl ih =>
        intro c hc
        rw [List.foldl_cons]
        exact ih _ (hstep c hd.1 hd.2 hc)
    exact this calls [] (by simp [FILE_CONTEXT_CACHE_SIZE])

theorem file_context_cache_fifo_witness :
    (get_file_context (fun _ _ => ([] : List Nat)) [("a", [5])] "a" "zzz" = ([("a", [5])], [5])) ∧
      (get_file_context (fun _ _ => ([] : List Nat))
          ((List.range 100).map (fun i => (toString i, [i]))) "p" "zzz").1 =
        ((List.range 100).map (fun i => (toString i, [i]))).drop 1 ++ [("p", [])] := by
  constructor
  · have h := (file_context_cache_fifo (fun _ _ => ([] : List Nat)) [("a", [5])] "a" "zzz").1
      [5] (by rfl)
    rw [h]
  · have h := (file_context_cache_fifo (fun _ _ => ([] : List Nat))
      ((List.range 100).map (fun i => (toString i, [i]))) "p" "zzz").2.1 (by rfl) (by rfl)
    rw [h]

/-- The scores of `buildHits`' output form a sublist of the input pair
scores, and no hits are invented. -/
theorem buildHits_spec {μ : Type} {metas : List μ} :
    ∀ {pairs : List (Int × ℚ)} {res : List (SearchHit μ)},
      buildHits metas pairs = some res →
        (res.map (fun h => h.score)).Sublist (pairs.map (fun p => p.2)) ∧
          res.length ≤ pairs.length := by
  intro pairs
  induction pairs with
  | nil =>
    intro res h
    unfold buildHits at h
    injection h with he
    subst he
    exact ⟨List.Sublist.refl _, by simp⟩
  | cons hd tl ih =>
    intro res h
    obtain ⟨sid, score⟩ := hd
    unfold buildHits at h
    by_cases hneg : sid < 0
    · rw [if_pos hneg] at h
      obtain ⟨hs, hl⟩ := ih h
      exact ⟨by simpa using List.Sublist.cons score hs, by simp; omega⟩
    · rw [if_neg hneg] at h
      cases hm : metas[sid.toNat]? with
      | none => rw [hm] at h; exact Option.noConfusion h
      | some m =>
        rw [hm] at h
        cases hb : buildHits metas tl with
        | none => rw [hb] at h; exact Option.noConfusion h
        | some res2 =>
          rw [hb] at h
          injection h with he
          subst he
          obtain ⟨hs, hl⟩ := ih hb
          exact ⟨by simpa using List.Sublist.cons₂ score hs, by simpa using hl⟩

/-- The second components of a zip form a prefix (hence sublist) of the
second list. -/
theorem zip_snd_sublist {α β : Type} :
    ∀ (l1 : List α) (l2 : List β), ((l1.zip l2).map (fun p => p.2)).Sublist l2 := by
  intro l1
  induction l1 with
  | nil => intro l2; simp
  | cons hd tl ih =>
    intro l2
    cases l2 with
    | nil => simp
    | cons h2 t2 =>
      simpa using List.Sublist.cons₂ h2 (ih t2)

/-- C6: under the faiss contract (the raw index search returns exactly
`top_k` scores and ids, the scores non-increasing), `Retriever.search`
returns at most `top_k` hits sorted by non-increasing score; with
`top_k = 0` it returns the empty list; and, being a pure function of the
loaded index state (the method performs no writes), two calls with
identical state, query and `top_k` return identical output. -/
theorem retriever_search_contract {ε μ : Type} (r : Retriever ε μ) (query : String)
    (top_k : Nat)
    (hlen : ∀ (e : ε) (k : Nat), (r.indexSearch e k).1.length = k ∧
      (r.indexSearch e k).2.length = k)
    (hsort : ∀ (e : ε) (k : Nat),
      (r.indexSearch e k).1.Pairwise (fun a b => b ≤ a)) :
    (∀ res, r.search query top_k = some res →
        res.length ≤ top_k ∧ (res.map (fun h => h.score)).Pairwise (fun a b => b ≤ a)) ∧
      r.search query 0 = some [] ∧
      (∀ r2 : Retriever ε μ, r2.embed = r.embed → r2.normalizeL2 = r.normalizeL2 →
        r2.indexSearch = r.indexSearch → r2.metas = r.metas →
        r2.search query top_k = r.search query top_k) := by
  refine ⟨?_, ?_, ?_⟩
  · intro res hres
    unfold Retriever.search at hres
    obtain ⟨hsub, hle⟩ := buildHits_spec hres
    constructor
    · calc res.length
          ≤ ((r.indexSearch (r.normalizeL2 (r.embed query)) top_k).2.zip
              (r.indexSearch (r.normalizeL2 (r.embed query)) top_k).1).length := hle
        _ ≤ (r.indexSearch (r.normalizeL2 (r.embed query)) top_k).2.length := by
            rw [List.length_zip]; omega
        _ = top_k := (hlen (r.normalizeL2 (r.embed query)) top_k).2
    · exact List.Pairwise.sublist (hsub.trans (zip_snd_sublist _ _))
        (hsort (r.normalizeL2 (r.embed query)) top_k)
  · unfold Retriever.search
    have h2 := (hlen (r.normalizeL2 (r.embed query)) 0).2
    rw [List.length_eq_zero] at h2
    show buildHits r.metas
      ((r.indexSearch (r.normalizeL2 (r.embed query)) 0).2.zip
        (r.indexSearch (r.normalizeL2 (r.embed query)) 0).1) = some []
    rw [h2]
    rfl
  · intro r2 he hn hi hm
    unfold Retriever.search
    rw [he, hn, hi, hm]

theorem retriever_search_contract_witness :
    ([({ id := 0, score := 0, meta := "m" } : SearchHit String),
      { id := 0, score := 0, meta := "m" }].length ≤ 2 ∧
      (List.map (fun h => h.score)
          [({ id := 0, score := 0, meta := "m" } : SearchHit String),
           { id := 0, score := 0, meta := "m" }]).Pairwise (fun a b => b ≤ a)) ∧
      ({ embed := fun _ => (), normalizeL2 := id,
         indexSearch := fun _ k => (List.replicate k (0 : ℚ), List.replicate k (0 : Int)),
         metas := ["m"] } : Retriever Unit String).search "q" 0 = some [] := by
  have h := retriever_search_contract
    ({ embed := fun _ => (), normalizeL2 := id,
       indexSearch := fun _ k => (List.replicate k (0 : ℚ), List.replicate k (0 : Int)),
       metas := ["m"] } : Retriever Unit String) "q" 2
    (by intro e k; simp)
    (by intro e k; simp [List.pairwise_replicate])
  exact ⟨h.1 [{ id := 0, score := 0, meta := "m" }, { id := 0, score := 0, meta := "m" }]
    (by rfl), h.2.1⟩

/-- Splitting a separator-free list yields the single piece. -/
theorem chSplit_no_sep {c : Char} : ∀ {a : List Char}, c ∉ a → chSplit c a = [a] := by
  intro a
  induction a with
  | nil => intro _; rfl
  | cons hd tl ih =>
    intro h
    unfold chSplit
    rw [if_neg (by intro he; exact h (he ▸ List.mem_cons_self hd tl))]
    rw [ih (fun hm => h (List.mem_cons_of_mem hd hm))]

/-- Splitting after a separator-free prefix plus separator peels the
prefix off as the first piece. -/
theorem chSplit_append_sep {c : Char} :
    ∀ {a b : List Char}, c ∉ a → chSplit c (a ++ c :: b) = a :: chSplit c b := by
  intro a
  induction a with
  | nil =>
    intro b _
    show chSplit c ([] ++ c :: b) = [] :: chSplit c b
    have hstep : chSplit c ([] ++ c :: b) =
        if c = c then [] :: chSplit c b
        else
          match chSplit c b with
          | h :: t => (c :: h) :: t
          | [] => [[c]] := rfl
    rw [hstep, if_pos rfl]
  | cons hd tl ih =>
    intro b h
    show chSplit c (hd :: (tl ++ c :: b)) = (hd :: tl) :: chSplit c b
    have hstep : chSplit c (hd :: (tl ++ c :: b)) =
        if hd = c then [] :: chSplit c (tl ++ c :: b)
        else
          match chSplit c (tl ++ c :: b) with
          | h :: t => (hd :: h) :: t
          | [] => [[hd]] := rfl
    rw [hstep, if_neg (by intro he; exact h (he ▸ List.mem_cons_self hd tl))]
    rw [ih (fun hm => h (List.mem_cons_of_mem hd hm))]

/-- Every piece produced by `chSplit` is separator-free. -/
theorem chSplit_pieces_no_sep {c : Char} :
    ∀ {s : List Char} {piece : List Char}, piece ∈ chSplit c s → c ∉ piece := by
  intro s
  induction s with
  | nil =>
    intro piece h
    simp only [chSplit, List.mem_singleton] at h
    subst h
    exact List.not_mem_nil c
  | cons hd tl ih =>
    intro piece h
    unfold chSplit at h
    by_cases he : hd = c
    · rw [if_pos he] at h
      rcases List.mem_cons.mp h with h1 | h1
      · subst h1; exact List.not_mem_nil c
      · exact ih h1
    · rw [if_neg he] at h
      cases hr : chSplit c tl with
      | nil =>
        rw [hr] at h
        simp at h
        subst h
        simp only [List.mem_singleton]
        exact fun hc => he hc.symm
      | cons rh rt =>
        rw [hr] at h
        rcases List.mem_cons.mp h with h1 | h1
        · subst h1
          intro hm
          rcases List.mem_cons.mp hm with h2 | h2
          · exact he h2.symm
          · exact ih (hr ▸ List.mem_cons_self rh rt) h2
        · exact ih (hr ▸ List.mem_cons_of_mem rh h1)

/-- Joining a concatenation of two non-empty piece lists. -/
theorem chJoin_append {c : Char} :
    ∀ {A B : List (List Char)}, A ≠ [] → B ≠ [] →
      chJoin c (A ++ B) = chJoin c A ++ c :: chJoin c B := by
  intro A
  induction A with
  | nil => intro B h _; exact absurd rfl h
  | cons hd tl ih =>
    intro B _ hB
    cases tl with
    | nil =>
      cases B with
      | nil => exact absurd rfl hB
      | cons bh bt => rfl
    | cons th tt =>
      have h1 : chJoin c ((hd :: th :: tt) ++ B) = hd ++ c :: chJoin c ((th :: tt) ++ B) := rfl
      rw [h1, ih (by simp) hB]
      rw [show chJoin c (hd :: th :: tt) = hd ++ c :: chJoin c (th :: tt) from rfl,
        List.append_assoc]
      rfl

/-- `chSplit` inverts `chJoin` on non-empty lists of separator-free
pieces. -/
theorem chSplit_chJoin {c : Char} :
    ∀ {A : List (List Char)}, A ≠ [] → (∀ l ∈ A, c ∉ l) →
      chSplit c (chJoin c A) = A := by
  intro A
  induction A with
  | nil => intro h _; exact absurd rfl h
  | cons hd tl ih =>
    intro _ hfree
    cases tl with
    | nil => exact chSplit_no_sep (hfree hd (List.mem_cons_self _ _))
    | cons th tt =>
      have h1 : chJoin c (hd :: th :: tt) = hd ++ c :: chJoin c (th :: tt) := rfl
      rw [h1, chSplit_append_sep (hfree hd (List.mem_cons_self _ _))]
      rw [ih (by simp) (fun l hl => hfree l (List.mem_cons_of_mem hd hl))]

/-- `String.mk` is a left inverse of `String.data`. -/
theorem string_mk_data (s : String) : String.mk s.data = s := rfl

/-- `pyLines` inverts `pyJoin` on non-empty lists of newline-free
lines. -/
theorem pyLines_pyJoin {L : List String} (hne : L ≠ [])
    (hfree : ∀ l ∈ L, '\n' ∉ l.data) : pyLines (pyJoin L) = L := by
  unfold pyLines pyJoin
  have hdata : (String.mk (chJoin '\n' (L.map String.data))).data =
      chJoin '\n' (L.map String.data) := rfl
  rw [hdata]
  rw [chSplit_chJoin (by simpa using hne)
    (by intro l hl
        obtain ⟨s, hs, he⟩ := List.mem_map.mp hl
        exact he ▸ hfree s hs)]
  rw [List.map_map]
  have : (String.mk ∘ String.data) = id := by
    funext s
    exact string_mk_data s
  rw [this, List.map_id]

/-- Every line produced by `pyLines` is newline-free. -/
theorem pyLines_no_newline {s : String} {l : String} (h : l ∈ pyLines s) :
    '\n' ∉ l.data := by
  unfold pyLines at h
  obtain ⟨piece, hp, he⟩ := List.mem_map.mp h
  have := chSplit_pieces_no_sep hp
  rw [← he]
  exact this

/-- A successful forward scan returns a line number past its starting
index. -/
theorem findMethodEnd_ge {base : Nat} :
    ∀ {l : List String} {idx : Nat} {d : Int} {e : Nat},
      findMethodEnd base l idx d = some e → idx + 1 ≤ e := by
  intro l
  induction l with
  | nil => intro idx d e h; exact Option.noConfusion h
  | cons hd tl ih =>
    intro idx d e h
    unfold findMethodEnd at h
    by_cases hskip : pyStrip hd = "" ∨ strStarts (pyStrip hd) "#" = true
    · rw [if_pos hskip] at h
      have := ih h
      omega
    · rw [if_neg hskip] at h
      have h2 : (if hd.data.length - (chLStrip hd.data).length ≤ base ∧ pyStrip hd = "end" ∧
            d + (openersCount (pyStrip hd) : Int) - (closersCount (pyStrip hd) : Int) ≤ 0
          then some (idx + 1)
          else findMethodEnd base tl (idx + 1)
            (d + (openersCount (pyStrip hd) : Int) - (closersCount (pyStrip hd) : Int))) =
          some e := h
      split at h2
      · injection h2 with he
        omega
      · have := ih h2
        omega

/-- C2 counterexample: on the file `x\ndef foo\nend\ny` with query line 4
(which lies after `foo`'s terminating `end`), `extract_method_context`
still returns the `foo` method, whose range `[2, 3]` does not contain
the query line — refuting `start_line ≤ line_number ≤ end_line`. -/
theorem extract_method_context_range_counterexample :
    ∃ ctx, extract_method_context "x\ndef foo\nend\ny" 4 = some ctx ∧
      ¬(4 ≤ ctx.end_line) := by
  refine ⟨{ method_name := "foo", start_line := 2, end_line := 3,
            content := "def foo\nend", line_count := 2 }, by rfl, by decide⟩

/-- C2 (amended): whenever `extract_method_context` returns a context,
`start_line ≤ line_number` holds (the upper bound `line_number ≤
end_line` can fail, per the counterexample), and the first line of the
returned content — which is also its first non-blank line — parses as a
method-definition header whose name is the recorded `method_name` (and
whose indentation is the recorded one). -/
theorem extract_method_context_start_le_and_header
    (content : String) (ln : Nat) (ctx : MethodContext)
    (hsome : extract_method_context content ln = some ctx) :
    ctx.start_line ≤ ln ∧
      ∃ (hd : String) (tl : List String) (d : Nat),
        pyLines ctx.content = hd :: tl ∧ parseDefHeader hd = some (d, ctx.method_name) := by
  unfold extract_method_context at hsome
  by_cases hguard : ln < 1 ∨ (pyLines content).length < ln
  · rw [if_pos hguard] at hsome
    exact Option.noConfusion hsome
  · rw [if_neg hguard] at hsome
    have hln1 : 1 ≤ ln := by
      rcases Nat.lt_or_ge ln 1 with h | h
      · exact absurd (Or.inl h) hguard
      · exact h
    have hlnlen : ln ≤ (pyLines content).length := by
      rcases Nat.lt_or_ge (pyLines content).length ln with h | h
      · exact absurd (Or.inr h) hguard
      · exact h
    cases hfind : findHeaderBack (pyLines content) (rangeDown (ln - 1) (ln - 100)) with
    | none => rw [hfind] at hsome; exact Option.noConfusion hsome
    | some t =>
      obtain ⟨i, ind, name⟩ := t
      rw [hfind] at hsome
      obtain ⟨hmem, hparse⟩ := findHeaderBack_mem hfind
      obtain ⟨_, hile⟩ := mem_rangeDown hmem
      have hilen : i < (pyLines content).length := by omega
      simp only [Option.some.injEq] at hsome
      have hstart : ctx.start_line = i + 1 := by rw [← hsome]
      have hname : ctx.method_name = name := by rw [← hsome]
      have hcontent : ctx.content =
          pyJoin ((( pyLines content).drop (i + 1 - 1)).take
            ((match findMethodEnd ind ((pyLines content).drop i) i 0 with
              | some e => e
              | none => (pyLines content).length) - (i + 1 - 1))) := by rw [← hsome]
      set endline := (match findMethodEnd ind ((pyLines content).drop i) i 0 with
        | some e => e
        | none => (pyLines content).length) with hendline
    -- end of the method is at or after the header line
      have hendge : i + 1 ≤ endline := by
        rw [hendline]
        cases hfe : findMethodEnd ind ((pyLines content).drop i) i 0 with
        | some e => exact findMethodEnd_ge hfe
        | none =>
          show i + 1 ≤ (pyLines content).length
          omega
      refine ⟨by rw [hstart]; omega, ?_⟩
      have hdrop : (pyLines content).drop i =
          (pyLines content)[i] :: (pyLines content).drop (i + 1) :=
        List.drop_eq_getElem_cons hilen
      have hsimpl : i + 1 - 1 = i := by omega
      rw [hsimpl] at hcontent
      have htake : ((pyLines content).drop i).take (endline - i) =
          (pyLines content)[i] :: ((pyLines content).drop (i + 1)).take (endline - i - 1) := by
        rw [hdrop]
        have : endline - i = (endline - i - 1) + 1 := by omega
        rw [this]
        rfl
      rw [htake] at hcontent
      have hfree : ∀ l ∈ (pyLines content)[i] ::
          ((pyLines content).drop (i + 1)).take (endline - i - 1), '\n' ∉ l.data := by
        intro l hl
        rcases List.mem_cons.mp hl with h1 | h1
        · subst h1
          exact pyLines_no_newline (List.getElem_mem hilen)
        · exact pyLines_no_newline (List.mem_of_mem_drop (List.mem_of_mem_take h1))
      refine ⟨(pyLines content)[i],
        ((pyLines content).drop (i + 1)).take (endline - i - 1), ind, ?_, ?_⟩
      · rw [hcontent, pyLines_pyJoin (by simp) hfree]
      · rw [hname]
        rw [List.getD_eq_getElem (pyLines content) "" hilen] at hparse
        exact hparse

theorem extract_method_context_start_le_and_header_witness :
    ({ method_name := "foo", start_line := 2, end_line := 3, content := "def foo\nend",
       line_count := 2 } : MethodContext).start_line ≤ 3 ∧
      ∃ (hd : String) (tl : List String) (d : Nat),
        pyLines ({ method_name := "foo", start_line := 2, end_line := 3,
                   content := "def foo\nend", line_count := 2 } : MethodContext).content =
            hd :: tl ∧
          parseDefHeader hd =
            some (d, ({ method_name := "foo", start_line := 2, end_line := 3,
                        content := "def foo\nend",
                        line_count := 2 } : MethodContext).method_name) :=
  extract_method_context_start_le_and_header "x\ndef foo\nend\nz" 3 _ (by rfl)

theorem extractRubyLoop_step (line : String) (rest : List String) (dc ec : Nat)
    (acc : List String) (hacc : acc ≠ []) :
    extractRubyLoop (line :: rest) true dc ec acc =
      (if 0 < dc + rubyDefInc line ∧ dc + rubyDefInc line = ec + rubyEndInc line
       then acc ++ [line]
       else extractRubyLoop rest true (dc + rubyDefInc line) (ec + rubyEndInc line)
         (acc ++ [line])) := by
  have hskip : ¬(acc.isEmpty = true ∧ pyStrip line = "") := by
    intro hcon
    exact hacc (List.isEmpty_iff.mp hcon.1)
  have hbody : extractRubyLoop (line :: rest) true dc ec acc =
      (if acc.isEmpty ∧ pyStrip line = "" then extractRubyLoop rest true dc ec acc
       else
         if 0 < (if strStarts (pyStrip line) "def " || strStarts (pyStrip line) "class " ||
                strStarts (pyStrip line) "module " || strStarts (pyStrip line) "private" then
              dc + strCount (pyStrip line) "def " +
                (if strStarts (pyStrip line) "class " || strStarts (pyStrip line) "module "
                 then 1 else 0)
            else dc) ∧
            (if strStarts (pyStrip line) "def " || strStarts (pyStrip line) "class " ||
                strStarts (pyStrip line) "module " || strStarts (pyStrip line) "private" then
              dc + strCount (pyStrip line) "def " +
                (if strStarts (pyStrip line) "class " || strStarts (pyStrip line) "module "
                 then 1 else 0)
            else dc) =
            (if pyStrip line = "end" then ec + 1 else ec)
         then acc ++ [line]
         else extractRubyLoop rest
           (true || (strStarts (pyStrip line) "def " || strStarts (pyStrip line) "class " ||
             strStarts (pyStrip line) "module " || strStarts (pyStrip line) "private"))
           (if strStarts (pyStrip line) "def " || strStarts (pyStrip line) "class " ||
                strStarts (pyStrip line) "module " || strStarts (pyStrip line) "private" then
              dc + strCount (pyStrip line) "def " +
                (if strStarts (pyStrip line) "class " || strStarts (pyStrip line) "module "
                 then 1 else 0)
            else dc)
           (if pyStrip line = "end" then ec + 1 else ec) (acc ++ [line])) := rfl
  rw [hbody, if_neg hskip]
  have hD : (if strStarts (pyStrip line) "def " || strStarts (pyStrip line) "class " ||
        strStarts (pyStrip line) "module " || strStarts (pyStrip line) "private" then
      dc + strCount (pyStrip line) "def " +
        (if strStarts (pyStrip line) "class " || strStarts (pyStrip line) "module "
         then 1 else 0)
    else dc) = dc + rubyDefInc line := by
    unfold rubyDefInc
    by_cases h : (strStarts (pyStrip line) "def " || strStarts (pyStrip line) "class " ||
        strStarts (pyStrip line) "module " || strStarts (pyStrip line) "private") = true
    · simp [h, Nat.add_assoc]
    · simp [h]
  have hE : (if pyStrip line = "end" then ec + 1 else ec) = ec + rubyEndInc line := by
    unfold rubyEndInc
    by_cases h : pyStrip line = "end"
    · simp [h]
    · simp [h]
  rw [hD, hE]
  simp only [Bool.true_or]

theorem strStarts_def_ne_empty {s : String} (h : strStarts s "def " = true) : s ≠ "" := by
  intro he
  subst he
  exact Bool.noConfusion h

theorem extractRubyLoop_entry_step (d : String) (rest : List String)
    (hd : strStarts (pyStrip d) "def " = true) :
    extractRubyLoop (d :: rest) false 0 0 [] =
      (if 0 < rubyDefInc d ∧ rubyDefInc d = rubyEndInc d then [d]
       else extractRubyLoop rest true (rubyDefInc d) (rubyEndInc d) [d]) := by
  have hstrip : pyStrip d ≠ "" := strStarts_def_ne_empty hd
  have hbody : extractRubyLoop (d :: rest) false 0 0 [] =
      (if ([] : List String).isEmpty ∧ pyStrip d = "" then extractRubyLoop rest false 0 0 []
       else
         if (false || (strStarts (pyStrip d) "def " || strStarts (pyStrip d) "class " ||
             strStarts (pyStrip d) "module " || strStarts (pyStrip d) "private")) = true then
           (if 0 < (if strStarts (pyStrip d) "def " || strStarts (pyStrip d) "class " ||
                  strStarts (pyStrip d) "module " || strStarts (pyStrip d) "private" then
                0 + strCount (pyStrip d) "def " +
                  (if strStarts (pyStrip d) "class " || strStarts (pyStrip d) "module "
                   then 1 else 0)
              else 0) ∧
              (if strStarts (pyStrip d) "def " || strStarts (pyStrip d) "class " ||
                  strStarts (pyStrip d) "module " || strStarts (pyStrip d) "private" then
                0 + strCount (pyStrip d) "def " +
                  (if strStarts (pyStrip d) "class " || strStarts (pyStrip d) "module "
                   then 1 else 0)
              else 0) =
              (if pyStrip d = "end" then 0 + 1 else 0)
            then [] ++ [d]
            else extractRubyLoop rest
              (false || (strStarts (pyStrip d) "def " || strStarts (pyStrip d) "class " ||
                strStarts (pyStrip d) "module " || strStarts (pyStrip d) "private"))
              (if strStarts (pyStrip d) "def " || strStarts (pyStrip d) "class " ||
                  strStarts (pyStrip d) "module " || strStarts (pyStrip d) "private" then
                0 + strCount (pyStrip d) "def " +
                  (if strStarts (pyStrip d) "class " || strStarts (pyStrip d) "module "
                   then 1 else 0)
              else 0)
              (if pyStrip d = "end" then 0 + 1 else 0) ([] ++ [d]))
         else extractRubyLoop rest
           (false || (strStarts (pyStrip d) "def " || strStarts (pyStrip d) "class " ||
             strStarts (pyStrip d) "module " || strStarts (pyStrip d) "private"))
           (if strStarts (pyStrip d) "def " || strStarts (pyStrip d) "class " ||
               strStarts (pyStrip d) "module " || strStarts (pyStrip d) "private" then
             0 + strCount (pyStrip d) "def " +
               (if strStarts (pyStrip d) "class " || strStarts (pyStrip d) "module "
                then 1 else 0)
           else 0)
           0 []) := rfl
  rw [hbody]
  rw [if_neg (fun hcon => hstrip hcon.2)]
  have hDinc : (if strStarts (pyStrip d) "def " || strStarts (pyStrip d) "class " ||
        strStarts (pyStrip d) "module " || strStarts (pyStrip d) "private" then
      0 + strCount (pyStrip d) "def " +
        (if strStarts (pyStrip d) "class " || strStarts (pyStrip d) "module "
         then 1 else 0)
    else 0) = rubyDefInc d := by
    unfold rubyDefInc
    simp [hd, Nat.add_assoc]
  have hEinc : (if pyStrip d = "end" then 0 + 1 else 0) = rubyEndInc d := by
    unfold rubyEndInc
    by_cases h : pyStrip d = "end"
    · simp [h]
    · simp [h]
  rw [hDinc, hEinc]
  simp [hd]

theorem extractRubyLoop_balanced :
    ∀ (D Q acc : List String) (dc ec : Nat),
      acc ≠ [] → D ≠ [] →
      (0 < dc + rubyDefSum D ∧ dc + rubyDefSum D = ec + rubyEndSum D) →
      (∀ k, 1 ≤ k → k < D.length →
        ¬(0 < dc + rubyDefSum (D.take k) ∧
          dc + rubyDefSum (D.take k) = ec + rubyEndSum (D.take k))) →
      extractRubyLoop (D ++ Q) true dc ec acc = acc ++ D := by
  intro D
  induction D with
  | nil => intro Q acc dc ec _ hne _ _; exact absurd rfl hne
  | cons d tl ih =>
    intro Q acc dc ec hacc _ hstop hmid
    rw [List.cons_append, extractRubyLoop_step d (tl ++ Q) dc ec acc hacc]
    cases tl with
    | nil =>
      rw [if_pos (by simpa [rubyDefSum, rubyEndSum] using hstop)]
    | cons d2 tt =>
      rw [if_neg (by
        have := hmid 1 (by omega) (by simp)
        simpa [rubyDefSum, rubyEndSum] using this)]
      rw [ih Q (acc ++ [d]) (dc + rubyDefInc d) (ec + rubyEndInc d) (by simp) (by simp)
        (by
          have := hstop
          simp only [rubyDefSum, rubyEndSum, List.map_cons, List.sum_cons] at this ⊢
          omega)
        (by
          intro k hk1 hk2
          have := hmid (k + 1) (by omega) (by simpa using hk2)
          simp only [rubyDefSum, rubyEndSum, List.take_succ_cons, List.map_cons,
            List.sum_cons] at this ⊢
          omega)]
      simp

theorem extractRubyLoop_main (d : String) (tl Q : List String)
    (hd : strStarts (pyStrip d) "def " = true)
    (hstop : 0 < rubyDefSum (d :: tl) ∧ rubyDefSum (d :: tl) = rubyEndSum (d :: tl))
    (hmid : ∀ k, 1 ≤ k → k < (d :: tl).length →
      ¬(0 < rubyDefSum ((d :: tl).take k) ∧
        rubyDefSum ((d :: tl).take k) = rubyEndSum ((d :: tl).take k))) :
    extractRubyLoop ((d :: tl) ++ Q) false 0 0 [] = d :: tl := by
  rw [List.cons_append, extractRubyLoop_entry_step d (tl ++ Q) hd]
  cases tl with
  | nil =>
    rw [if_pos (by simpa [rubyDefSum, rubyEndSum] using hstop)]
  | cons d2 tt =>
    rw [if_neg (by
      have := hmid 1 (by omega) (by simp)
      simpa [rubyDefSum, rubyEndSum] using this)]
    rw [extractRubyLoop_balanced (d2 :: tt) Q [d] (rubyDefInc d) (rubyEndInc d) (by simp)
      (by simp)
      (by
        have := hstop
        simp only [rubyDefSum, rubyEndSum, List.map_cons, List.sum_cons] at this ⊢
        omega)
      (by
        intro k hk1 hk2
        have := hmid (k + 1) (by omega) (by simpa using hk2)
        simp only [rubyDefSum, rubyEndSum, List.take_succ_cons, List.map_cons,
          List.sum_cons] at this ⊢
        omega)]
    rfl

theorem mem_chStrip {x : Char} {s : List Char} (h : x ∈ chStrip s) : x ∈ s := by
  unfold chStrip at h
  rw [List.mem_reverse] at h
  have h1 := (List.dropWhile_sublist pySpace).mem h
  rw [List.mem_reverse] at h1
  exact (List.dropWhile_sublist pySpace).mem h1

theorem chStrip_eq_nil_all_space {s : List Char} (h : chStrip s = []) :
    ∀ x ∈ s, pySpace x = true := by
  unfold chStrip at h
  rw [List.reverse_eq_nil_iff, List.dropWhile_eq_nil_iff] at h
  intro x hx
  rcases List.mem_append.mp ((List.takeWhile_append_dropWhile pySpace s) ▸ hx) with h1 | h1
  · exact List.mem_takeWhile_imp h1
  · exact h x (List.mem_reverse.mpr h1)

theorem mem_chJoin_head {x : Char} {c : Char} {l : List Char} {rest : List (List Char)}
    (h : x ∈ l) : x ∈ chJoin c (l :: rest) := by
  cases rest with
  | nil => exact h
  | cons r t => exact List.mem_append_left _ h

theorem mem_chJoin_cases {x c : Char} :
    ∀ {L : List (List Char)}, x ∈ chJoin c L → x = c ∨ ∃ l ∈ L, x ∈ l := by
  intro L
  induction L with
  | nil => intro h; simp [chJoin] at h
  | cons hd tl ih =>
    intro h
    cases tl with
    | nil => exact Or.inr ⟨hd, List.mem_cons_self _ _, h⟩
    | cons t2 tt =>
      have hj : chJoin c (hd :: t2 :: tt) = hd ++ c :: chJoin c (t2 :: tt) := rfl
      rw [hj] at h
      rcases List.mem_append.mp h with h1 | h1
      · exact Or.inr ⟨hd, List.mem_cons_self _ _, h1⟩
      · rcases List.mem_cons.mp h1 with h2 | h2
        · exact Or.inl h2
        · rcases ih h2 with h3 | ⟨l, hl, hxl⟩
          · exact Or.inl h3
          · exact Or.inr ⟨l, List.mem_cons_of_mem _ hl, hxl⟩

theorem no_mid_start {s sep : List Char} (h : chOverlapsAt s sep = false) :
    ∀ i, i < s.length → ∀ t, sep.isPrefixOf (s.drop i ++ t) = false := by
  intro i hi t
  have hall := List.any_eq_false.mp h
  have hpred := hall i (List.mem_range.mpr hi)
  by_cases hpre : sep.isPrefixOf (s.drop i ++ t) = true
  · exfalso
    have hps : sep <+: (s.drop i ++ t) := List.isPrefixOf_iff_prefix.mp hpre
    by_cases hlen : sep.length ≤ (s.drop i).length
    · rw [if_pos hlen] at hpred
      have : sep <+: s.drop i :=
        List.prefix_of_prefix_length_le hps (List.prefix_append _ _) hlen
      exact hpred (List.isPrefixOf_iff_prefix.mpr this)
    · rw [if_neg hlen] at hpred
      have : s.drop i <+: sep :=
        List.prefix_of_prefix_length_le (List.prefix_append _ _) hps (by omega)
      exact hpred (List.isPrefixOf_iff_prefix.mpr this)
  · exact Bool.not_eq_true _ ▸ Bool.eq_false_iff.mpr hpre

theorem chTakeBefore_append {sep : List Char} :
    ∀ (dj : List Char),
      (∀ i, i < dj.length → ∀ t, sep.isPrefixOf (dj.drop i ++ t) = false) →
      ∀ rest, chTakeBefore (dj ++ rest) sep = dj ++ chTakeBefore rest sep := by
  intro dj
  induction dj with
  | nil => intro _ rest; rfl
  | cons hd tl ih =>
    intro hno rest
    have hstep : chTakeBefore (hd :: (tl ++ rest)) sep =
        if sep.isPrefixOf (hd :: (tl ++ rest)) then []
        else hd :: chTakeBefore (tl ++ rest) sep := rfl
    show chTakeBefore (hd :: (tl ++ rest)) sep = (hd :: tl) ++ chTakeBefore rest sep
    rw [hstep]
    have hc : sep.isPrefixOf (hd :: (tl ++ rest)) = false := hno 0 (by simp) rest
    rw [hc]
    rw [ih (fun i hi t => hno (i + 1) (by simp; omega) t) rest]
    rfl

theorem reME_cls_head_fail {p : Char → Bool} {r1 : RE} {prev : Option Char}
    {s : List Char} {k : Option Char → List Char → Option (Option Char × List Char)}
    {fuel : Nat} (hf : 2 ≤ fuel) (hs : ∀ x t, s = x :: t → p x = false) :
    reME fuel (RE.cat (RE.cls p) r1) prev s k = none := by
  obtain ⟨f, rfl⟩ : ∃ f, fuel = f + 2 := ⟨fuel - 2, by omega⟩
  cases s with
  | nil => rfl
  | cons x t =>
    have hbody : reME (f + 2) (RE.cat (RE.cls p) r1) prev (x :: t) k =
        (if p x then reME (f + 1) r1 (some x) t k else none) := rfl
    rw [hbody, hs x t rfl]
    rfl

theorem reSubAux_append {p : Char → Bool} {r1 : RE} {fuel : Nat} (hf : 2 ≤ fuel) :
    ∀ (a : List Char), (∀ x ∈ a, p x = false) →
      ∀ (rest : List Char) (prev : Option Char) (sf : Nat),
        a.length + rest.length < sf →
        ∃ prev2, reSubAux fuel (RE.cat (RE.cls p) r1) [] sf prev (a ++ rest) =
          a ++ reSubAux fuel (RE.cat (RE.cls p) r1) [] (sf - a.length) prev2 rest := by
  intro a
  induction a with
  | nil =>
    intro _ rest prev sf _
    exact ⟨prev, by simp⟩
  | cons hd tl ih =>
    intro hp rest prev sf hlen
    obtain ⟨sf2, rfl⟩ : ∃ s2, sf = s2 + 1 := ⟨sf - 1, by simp at hlen; omega⟩
    have hbody : reSubAux fuel (RE.cat (RE.cls p) r1) [] (sf2 + 1) prev
        (hd :: (tl ++ rest)) =
        (match reME fuel (RE.cat (RE.cls p) r1) prev (hd :: (tl ++ rest))
            (fun p2 s2 => some (p2, s2)) with
         | some (p2, s2) =>
           if s2.length < (hd :: (tl ++ rest)).length then
             [] ++ reSubAux fuel (RE.cat (RE.cls p) r1) [] sf2 p2 s2
           else
             [] ++ hd :: reSubAux fuel (RE.cat (RE.cls p) r1) [] sf2 (some hd) (tl ++ rest)
         | none => hd :: reSubAux fuel (RE.cat (RE.cls p) r1) [] sf2 (some hd) (tl ++ rest)) :=
      rfl
    have hfail : reME fuel (RE.cat (RE.cls p) r1) prev (hd :: (tl ++ rest))
        (fun p2 s2 => some (p2, s2)) = none :=
      reME_cls_head_fail hf (fun x t hxt => by
        injection hxt with h1 _
        exact h1 ▸ hp hd (List.mem_cons_self hd tl))
    obtain ⟨prev2, heq⟩ := ih (fun x hx => hp x (List.mem_cons_of_mem hd hx)) rest
      (some hd) sf2 (by simp at hlen ⊢; omega)
    refine ⟨prev2, ?_⟩
    rw [List.cons_append, hbody, hfail]
    show hd :: reSubAux fuel (RE.cat (RE.cls p) r1) [] sf2 (some hd) (tl ++ rest) =
      (hd :: tl) ++ reSubAux fuel (RE.cat (RE.cls p) r1) [] (sf2 + 1 - (hd :: tl).length)
        prev2 rest
    rw [heq]
    have hn : sf2 + 1 - (hd :: tl).length = sf2 - tl.length := by simp
    rw [hn]
    rfl

theorem reSub_cls_tailForm {p : Char → Bool} {r1 : RE} {dj : List Char}
    (hnl : p '\n' = false) (hdj : ∀ x ∈ dj, p x = false) (s : String)
    (hform : s.data = dj ∨ ∃ r, s.data = dj ++ '\n' :: r) :
    (reSub (RE.cat (RE.cls p) r1) "" s).data = dj ∨
      ∃ r, (reSub (RE.cat (RE.cls p) r1) "" s).data = dj ++ '\n' :: r := by
  have hf2 : 2 ≤ reFuel s.data := by unfold reFuel; omega
  have hnil : ∀ (F : Nat), 2 ≤ F → ∀ (prev2 : Option Char),
      reSubAux F (RE.cat (RE.cls p) r1) [] 1 prev2 [] = [] := by
    intro F hF prev2
    have hbody : reSubAux F (RE.cat (RE.cls p) r1) [] 1 prev2 [] =
        (match reME F (RE.cat (RE.cls p) r1) prev2 [] (fun p2 s2 => some (p2, s2)) with
         | some (p2, s2) =>
           if s2.length < ([] : List Char).length then
             [] ++ reSubAux F (RE.cat (RE.cls p) r1) [] 0 p2 s2
           else []
         | none => []) := rfl
    rw [hbody, reME_cls_head_fail hF (fun x t hxt => List.noConfusion hxt)]
  rcases hform with hd1 | ⟨r, hd1⟩
  · left
    show reSubAux (reFuel s.data) (RE.cat (RE.cls p) r1) [] (s.data.length + 1) none
      s.data = dj
    revert hf2
    rw [hd1]
    intro hf2
    obtain ⟨prev2, heq⟩ := reSubAux_append hf2 dj hdj [] none (dj.length + 1) (by simp)
    rw [List.append_nil] at heq
    rw [heq]
    have h1 : dj.length + 1 - dj.length = 1 := by omega
    rw [h1, hnil _ hf2 prev2, List.append_nil]
  · right
    show ∃ r2, reSubAux (reFuel s.data) (RE.cat (RE.cls p) r1) [] (s.data.length + 1) none
      s.data = dj ++ '\n' :: r2
    revert hf2
    rw [hd1]
    intro hf2
    obtain ⟨prev2, heq⟩ := reSubAux_append hf2 dj hdj ('\n' :: r) none
      ((dj ++ '\n' :: r).length + 1) (by simp)
    rw [heq]
    have h1 : (dj ++ '\n' :: r).length + 1 - dj.length = (r.length + 1) + 1 := by
      simp; omega
    rw [h1]
    have hbody : reSubAux (reFuel (dj ++ '\n' :: r)) (RE.cat (RE.cls p) r1) []
        ((r.length + 1) + 1) prev2 ('\n' :: r) =
        (match reME (reFuel (dj ++ '\n' :: r)) (RE.cat (RE.cls p) r1) prev2 ('\n' :: r)
            (fun p2 s2 => some (p2, s2)) with
         | some (p2, s2) =>
           if s2.length < ('\n' :: r).length then
             [] ++ reSubAux (reFuel (dj ++ '\n' :: r)) (RE.cat (RE.cls p) r1) []
               (r.length + 1) p2 s2
           else
             [] ++ '\n' :: reSubAux (reFuel (dj ++ '\n' :: r)) (RE.cat (RE.cls p) r1) []
               (r.length + 1) (some '\n') r
         | none => '\n' :: reSubAux (reFuel (dj ++ '\n' :: r)) (RE.cat (RE.cls p) r1) []
             (r.length + 1) (some '\n') r) := rfl
    rw [hbody, reME_cls_head_fail hf2 (fun x t hxt => by
      injection hxt with h1 _
      exact h1 ▸ hnl)]
    exact ⟨reSubAux (reFuel (dj ++ '\n' :: r)) (RE.cat (RE.cls p) r1) [] (r.length + 1)
      (some '\n') r, rfl⟩

theorem reSub_tickRuby_tailForm {dj : List Char} (hdj : Char.ofNat 96 ∉ dj) (s : String)
    (hform : s.data = dj ∨ ∃ r, s.data = dj ++ '\n' :: r) :
    (reSub reTickRuby "" s).data = dj ∨
      ∃ r, (reSub reTickRuby "" s).data = dj ++ '\n' :: r :=
  @reSub_cls_tailForm (fun x => x = Char.ofNat 96)
    (RE.seq [RE.str "``ruby", RE.opt (RE.chr '\n')]) dj (by decide)
    (fun x hx => decide_eq_false (fun he => hdj (he ▸ hx))) s hform

theorem reSub_tickAny_tailForm {dj : List Char} (hdj : Char.ofNat 96 ∉ dj) (s : String)
    (hform : s.data = dj ∨ ∃ r, s.data = dj ++ '\n' :: r) :
    (reSub reTickAny "" s).data = dj ∨
      ∃ r, (reSub reTickAny "" s).data = dj ++ '\n' :: r :=
  @reSub_cls_tailForm (fun x => x = Char.ofNat 96)
    (RE.seq [RE.str "``", RE.opt (RE.chr '\n')]) dj (by decide)
    (fun x hx => decide_eq_false (fun he => hdj (he ▸ hx))) s hform

theorem reSub_htmlTag_tailForm {dj : List Char} (hdj : '<' ∉ dj) (s : String)
    (hform : s.data = dj ∨ ∃ r, s.data = dj ++ '\n' :: r) :
    (reSub reHtmlTag "" s).data = dj ∨
      ∃ r, (reSub reHtmlTag "" s).data = dj ++ '\n' :: r :=
  @reSub_cls_tailForm (fun x => x = '<')
    (RE.seq [RE.pl (RE.cls (fun c => c ≠ '>')), RE.chr '>']) dj (by decide)
    (fun x hx => decide_eq_false (fun he => hdj (he ▸ hx))) s hform

theorem sepStep_tailForm {dj : List Char} {sep : String}
    (hov : chOverlapsAt dj sep.data = false) (s : String)
    (hform : s.data = dj ∨ ∃ r, s.data = dj ++ '\n' :: r) :
    ((if strContains s sep then (⟨chTakeBefore s.data sep.data⟩ : String) else s).data =
        dj ∨
      ∃ r, (if strContains s sep then (⟨chTakeBefore s.data sep.data⟩ : String)
        else s).data = dj ++ '\n' :: r) := by
  by_cases hc : strContains s sep = true
  · rw [if_pos hc]
    have hno := no_mid_start hov
    rcases hform with hd1 | ⟨r, hd1⟩
    · left
      show chTakeBefore s.data sep.data = dj
      have h2 := chTakeBefore_append dj hno []
      have h3 : chTakeBefore [] sep.data = [] := rfl
      rw [h3, List.append_nil] at h2
      rw [hd1]
      exact h2
    · have h2 := chTakeBefore_append dj hno ('\n' :: r)
      by_cases hpre : sep.data.isPrefixOf ('\n' :: r) = true
      · left
        show chTakeBefore s.data sep.data = dj
        have hstep : chTakeBefore ('\n' :: r) sep.data =
            (if sep.data.isPrefixOf ('\n' :: r) then []
             else '\n' :: chTakeBefore r sep.data) := rfl
        rw [hstep, if_pos hpre, List.append_nil] at h2
        rw [hd1]
        exact h2
      · right
        refine ⟨chTakeBefore r sep.data, ?_⟩
        show chTakeBefore s.data sep.data = dj ++ '\n' :: chTakeBefore r sep.data
        have hstep : chTakeBefore ('\n' :: r) sep.data =
            (if sep.data.isPrefixOf ('\n' :: r) then []
             else '\n' :: chTakeBefore r sep.data) := rfl
        rw [hstep, if_neg hpre] at h2
        rw [hd1]
        exact h2
  · rw [if_neg hc]
    exact hform

theorem sepFold_tailForm {dj : List Char} :
    ∀ (seps : List String), (∀ sep ∈ seps, chOverlapsAt dj sep.data = false) →
      ∀ (s : String), (s.data = dj ∨ ∃ r, s.data = dj ++ '\n' :: r) →
      ((seps.foldl
          (fun s sep => if strContains s sep then ⟨chTakeBefore s.data sep.data⟩ else s)
          s).data = dj ∨
        ∃ r, (seps.foldl
          (fun s sep => if strContains s sep then ⟨chTakeBefore s.data sep.data⟩ else s)
          s).data = dj ++ '\n' :: r) := by
  intro seps
  induction seps with
  | nil => intro _ s hform; exact hform
  | cons sep tls ih =>
    intro hov s hform
    rw [List.foldl_cons]
    exact ih (fun x hx => hov x (List.mem_cons_of_mem _ hx)) _
      (sepStep_tailForm (hov sep (List.mem_cons_self _ _)) s hform)

theorem chSplit_chJoin_append {c : Char} :
    ∀ {A : List (List Char)} {r : List Char}, A ≠ [] → (∀ l ∈ A, c ∉ l) →
      chSplit c (chJoin c A ++ c :: r) = A ++ chSplit c r := by
  intro A
  induction A with
  | nil => intro r h _; exact absurd rfl h
  | cons hd tl ih =>
    intro r _ hfree
    cases tl with
    | nil =>
      show chSplit c (hd ++ c :: r) = hd :: chSplit c r
      exact chSplit_append_sep (hfree hd (List.mem_cons_self _ _))
    | cons th tt =>
      have h1 : chJoin c (hd :: th :: tt) = hd ++ c :: chJoin c (th :: tt) := rfl
      rw [h1, List.append_assoc, List.cons_append,
        chSplit_append_sep (hfree hd (List.mem_cons_self _ _))]
      rw [ih (by simp) (fun l hl => hfree l (List.mem_cons_of_mem hd hl))]
      rfl

theorem map_mk_map_data (L : List String) : (L.map String.data).map String.mk = L := by
  rw [List.map_map]
  have h : (String.mk ∘ String.data) = id := by
    funext s
    exact string_mk_data s
  rw [h, List.map_id]

theorem pyJoin_append_tailForm {D P : List String} (hD : D ≠ []) :
    (pyJoin (D ++ P)).data = (pyJoin D).data ∨
      ∃ r, (pyJoin (D ++ P)).data = (pyJoin D).data ++ '\n' :: r := by
  cases P with
  | nil => left; rw [List.append_nil]
  | cons p pt =>
    right
    refine ⟨chJoin '\n' ((p :: pt).map String.data), ?_⟩
    show chJoin '\n' ((D ++ p :: pt).map String.data) = _
    rw [List.map_append, chJoin_append (by simpa using hD) (by simp)]
    rfl

theorem pyLines_tailForm {D : List String} (hD : D ≠ [])
    (hfree : ∀ l ∈ D, '\n' ∉ l.data) (s : String)
    (hform : s.data = (pyJoin D).data ∨
      ∃ r, s.data = (pyJoin D).data ++ '\n' :: r) :
    ∃ Q, pyLines s = D ++ Q := by
  rcases hform with h1 | ⟨r, h1⟩
  · refine ⟨[], ?_⟩
    rw [List.append_nil]
    have hs : s = pyJoin D := by
      have h2 := congrArg String.mk h1
      rwa [string_mk_data, string_mk_data] at h2
    rw [hs, pyLines_pyJoin hD hfree]
  · refine ⟨(chSplit '\n' r).map String.mk, ?_⟩
    show (chSplit '\n' s.data).map String.mk = D ++ (chSplit '\n' r).map String.mk
    rw [h1, show (pyJoin D).data = chJoin '\n' (D.map String.data) from rfl,
      chSplit_chJoin_append (by simpa using hD)
        (by
          intro l hl
          obtain ⟨t, ht, he⟩ := List.mem_map.mp hl
          exact he ▸ hfree t ht),
      List.map_append, map_mk_map_data]

/-- C8: for a generator response consisting of a balanced definition (a
non-empty block of clean lines whose first stripped line starts with
`def `, whose def-opening count equals its closing-`end` count, with no
earlier balance point) followed by trailing unrelated prose,
`_extract_ruby_code` returns exactly the balanced unit and discards the
prose. -/
theorem extract_ruby_code_balanced_unit
    (d0 : String) (tl P : List String)
    (hkeep : ∀ l ∈ d0 :: tl, ruby_keep_line l = true)
    (hnl : ∀ l ∈ d0 :: tl, '\n' ∉ l.data)
    (hbt : ∀ l ∈ d0 :: tl, Char.ofNat 96 ∉ l.data)
    (hlt : ∀ l ∈ d0 :: tl, '<' ∉ l.data)
    (hsep : ∀ sep ∈ ruby_separators,
      chOverlapsAt (pyJoin (d0 :: tl)).data sep.data = false)
    (hhead : strStarts (pyStrip d0) "def " = true)
    (hbal : 0 < rubyDefSum (d0 :: tl) ∧ rubyDefSum (d0 :: tl) = rubyEndSum (d0 :: tl))
    (hmin : ∀ k, 1 ≤ k → k < (d0 :: tl).length →
      ¬(0 < rubyDefSum ((d0 :: tl).take k) ∧
        rubyDefSum ((d0 :: tl).take k) = rubyEndSum ((d0 :: tl).take k)))
    (hstrip : pyStrip (pyJoin (d0 :: tl)) = pyJoin (d0 :: tl)) :
    extract_ruby_code (pyJoin ((d0 :: tl) ++ P)) = pyJoin (d0 :: tl) := by
  have hpd : "def ".data <+: (pyStrip d0).data := List.isPrefixOf_iff_prefix.mp hhead
  obtain ⟨t0, ht0⟩ := hpd
  have hdstrip : 'd' ∈ (pyStrip d0).data := by
    rw [← ht0]
    exact List.mem_append_left _ (by decide)
  have hd0 : 'd' ∈ d0.data := mem_chStrip hdstrip
  have hrd : 'd' ∈ (pyJoin ((d0 :: tl) ++ P)).data := by
    show 'd' ∈ chJoin '\n' (((d0 :: tl) ++ P).map String.data)
    rw [List.cons_append, List.map_cons]
    exact mem_chJoin_head hd0
  have hne1 : pyJoin ((d0 :: tl) ++ P) ≠ "" := by
    intro he
    rw [he] at hrd
    exact absurd hrd (by decide)
  have hne2 : pyStrip (pyJoin ((d0 :: tl) ++ P)) ≠ "" := by
    intro he
    have h0 : chStrip (pyJoin ((d0 :: tl) ++ P)).data = [] := congrArg String.data he
    exact absurd (chStrip_eq_nil_all_space h0 'd' hrd) (by decide)
  obtain ⟨Q0, hQ0⟩ : ∃ Q, pyLines (pyJoin ((d0 :: tl) ++ P)) = (d0 :: tl) ++ Q :=
    pyLines_tailForm (by simp) hnl _ (pyJoin_append_tailForm (by simp))
  have hfilter : (pyLines (pyJoin ((d0 :: tl) ++ P))).filter ruby_keep_line =
      (d0 :: tl) ++ Q0.filter ruby_keep_line := by
    rw [hQ0, List.filter_append, List.filter_eq_self.mpr hkeep]
  have hbtj : Char.ofNat 96 ∉ (pyJoin (d0 :: tl)).data := by
    intro hm
    rcases mem_chJoin_cases hm with h | ⟨l, hl, hxl⟩
    · exact absurd h (by decide)
    · obtain ⟨t, ht, he⟩ := List.mem_map.mp hl
      exact hbt t ht (he ▸ hxl)
  have hltj : '<' ∉ (pyJoin (d0 :: tl)).data := by
    intro hm
    rcases mem_chJoin_cases hm with h | ⟨l, hl, hxl⟩
    · exact absurd h (by decide)
    · obtain ⟨t, ht, he⟩ := List.mem_map.mp hl
      exact hlt t ht (he ▸ hxl)
  have hform1 := pyJoin_append_tailForm (P := Q0.filter ruby_keep_line)
    (D := d0 :: tl) (by simp)
  have hform2 := reSub_tickRuby_tailForm hbtj _ hform1
  have hform3 := reSub_tickAny_tailForm hbtj _ hform2
  have hform4 := reSub_htmlTag_tailForm hltj _ hform3
  have hform5 := sepFold_tailForm ruby_separators hsep _ hform4
  obtain ⟨Q2, hQ2⟩ := pyLines_tailForm (by simp) hnl _ hform5
  simp only [extract_ruby_code]
  rw [if_neg (by
    simp only [beq_eq_false_iff_ne.mpr hne1, beq_eq_false_iff_ne.mpr hne2,
      Bool.or_self]
    exact Bool.false_ne_true)]
  rw [hfilter]
  rw [if_neg (by simp)]
  rw [hQ2, extractRubyLoop_main d0 tl Q2 hhead hbal hmin,
    if_pos (show (!(d0 :: tl).isEmpty) = true from rfl)]
  exact hstrip

theorem extract_ruby_code_balanced_unit_witness :
    extract_ruby_code
        (pyJoin (["def foo", "  x = 1", "end"] ++ ["This is prose", "more prose"])) =
      pyJoin ["def foo", "  x = 1", "end"] :=
  extract_ruby_code_balanced_unit "def foo" ["  x = 1", "end"]
    ["This is prose", "more prose"]
    (by decide) (by decide) (by decide) (by decide) (by decide) (by decide) (by decide)
    (by
      intro k hk1 hk2
      have hk3 : k < 3 := by simpa using hk2
      interval_cases k <;> decide)
    (by decide)
